import Mathlib

/-!
Verification development for the streaming response decoder of the
ai-agent-chatbox repository (src/src/services/aws-bedrock.ts together with
src/src/types/guards.ts and src/src/helpers/aws-bedrock.ts).

JavaScript strings are modelled as `List Char` (sequences of Unicode scalar
values; all string data handled by the decoder is surrogate-free). The
JavaScript standard-library operations the source relies on
(`String.prototype.split` with a literal separator, `String.prototype.replace`
with a global literal pattern, `String.prototype.trim`, `String.prototype.includes`,
`String.prototype.startsWith`, `TextDecoder` incremental UTF-8 decoding) are
given executable Lean models below, each following the ECMA-262 / WHATWG
semantics for the inputs the decoder feeds them.
-/

namespace Chatbox

abbrev Str := List Char

/-- The single-quote character (code point 39). -/
def squote : Char := Char.ofNat 39

/-- The double-quote character (code point 34). -/
def dquote : Char := Char.ofNat 34

/-- The backslash character (code point 92). -/
def bslash : Char := Char.ofNat 92

/-- The newline character. -/
def nlChar : Char := Char.ofNat 10

/-- The tab character. -/
def tabChar : Char := Char.ofNat 9

/-- The opening curly brace (code point 123). -/
def lbrace : Char := Char.ofNat 123

/-- The closing curly brace (code point 125). -/
def rbrace : Char := Char.ofNat 125

/-- ECMA-262 WhiteSpace and LineTerminator code points: the set matched by
the regular-expression class backslash-s and removed by
`String.prototype.trim`. -/
def jsSpace (c : Char) : Bool :=
  c.toNat = 32 || c.toNat = 9 || c.toNat = 10 || c.toNat = 13 ||
  c.toNat = 11 || c.toNat = 12 || c.toNat = 0xA0 || c.toNat = 0x1680 ||
  (0x2000 ≤ c.toNat && c.toNat ≤ 0x200A) || c.toNat = 0x2028 ||
  c.toNat = 0x2029 || c.toNat = 0x202F || c.toNat = 0x205F ||
  c.toNat = 0x3000 || c.toNat = 0xFEFF

/-- Model of `String.prototype.trim`. -/
def jsTrim (s : Str) : Str :=
  ((s.dropWhile jsSpace).reverse.dropWhile jsSpace).reverse

/-- Model of `String.prototype.includes` for a literal search string. -/
def containsSub (sub : Str) : Str → Bool
  | [] => sub.isPrefixOf ([] : Str)
  | c :: rest => sub.isPrefixOf (c :: rest) || containsSub sub rest

/-- Strip a literal prefix, returning the remainder on success. -/
def stripPfx : Str → Str → Option Str
  | [], s => some s
  | _ :: _, [] => none
  | p :: ps, c :: cs => if p = c then stripPfx ps cs else none

/-- Worker for `splitOn`: leftmost non-overlapping scan for the separator,
as performed by `String.prototype.split` with a literal separator.  The
`Nat` argument counts separator characters still to be skipped after a
match has been recognised at an earlier position. -/
def goSplit (sep : Str) : Str → Nat → List Str
  | [], _ => [[]]
  | _ :: rest, k + 1 => goSplit sep rest k
  | c :: rest, 0 =>
    if sep ≠ [] ∧ sep.isPrefixOf (c :: rest) then
      [] :: goSplit sep rest (sep.length - 1)
    else
      (goSplit sep rest 0).modifyHead (c :: ·)

/-- Model of `String.prototype.split` with a non-empty literal separator. -/
def splitOn (sep s : Str) : List Str := goSplit sep s 0

/-- `Array.prototype.join`: concatenate pieces with a separator between
adjacent pieces. -/
def joinSep (rep : Str) : List Str → Str
  | [] => []
  | [p] => p
  | p :: q :: rest => p ++ rep ++ joinSep rep (q :: rest)

/-- Model of `String.prototype.replace` with a global literal pattern and a
replacement free of dollar patterns: equivalent to split-then-join. -/
def replaceAll (pat rep s : Str) : Str := joinSep rep (splitOn pat s)

theorem goSplit_ne_nil (sep : Str) : ∀ (s : Str) (k : Nat), goSplit sep s k ≠ []
  | [], _ => by simp [goSplit]
  | _ :: rest, k + 1 => by
    simpa [goSplit] using goSplit_ne_nil sep rest k
  | c :: rest, 0 => by
    unfold goSplit
    by_cases h : sep ≠ [] ∧ sep.isPrefixOf (c :: rest)
    · simp [h]
    · simp only [h, if_false]
      have := goSplit_ne_nil sep rest 0
      cases hg : goSplit sep rest 0 with
      | nil => exact absurd hg this
      | cons a l => simp [List.modifyHead]

theorem splitOn_ne_nil (sep s : Str) : splitOn sep s ≠ [] :=
  goSplit_ne_nil sep s 0

/-- Skipping `k` characters with the skip counter is dropping them. -/
theorem goSplit_skip (sep : Str) :
    ∀ (k : Nat) (s : Str), k ≤ s.length → goSplit sep s k = goSplit sep (s.drop k) 0
  | 0, s, _ => by simp
  | k + 1, [], h => by simp at h
  | k + 1, c :: rest, h => by
    have hk : k ≤ rest.length := by simpa using h
    simpa [goSplit] using goSplit_skip sep k rest hk

/-- If the separator occurs nowhere in `s` (checked at every suffix), the
split returns the single piece `s`. -/
theorem goSplit_no_match (sep : Str) :
    ∀ (s : Str), (∀ i, ¬ sep.isPrefixOf (s.drop i) = true) → goSplit sep s 0 = [s]
  | [], _ => by simp [goSplit]
  | c :: rest, h => by
    have hnp : ¬ sep.isPrefixOf (c :: rest) = true := by simpa using h 0
    have hrest : ∀ i, ¬ sep.isPrefixOf (rest.drop i) = true := by
      intro i; simpa using h (i + 1)
    unfold goSplit
    have hcond : ¬ (sep ≠ [] ∧ sep.isPrefixOf (c :: rest)) := by
      intro hc; exact hnp hc.2
    simp only [hcond, if_false]
    rw [goSplit_no_match sep rest hrest]
    rfl

/-- A split that produced a single piece reproduced the input verbatim. -/
theorem goSplit_single (sep : Str) :
    ∀ (s p : Str), goSplit sep s 0 = [p] → p = s
  | [], p, h => by simpa [goSplit] using h.symm
  | c :: rest, p, h => by
    unfold goSplit at h
    by_cases hc : sep ≠ [] ∧ sep.isPrefixOf (c :: rest)
    · rw [if_pos hc] at h
      have h2 : goSplit sep rest (sep.length - 1) = [] := (List.cons_eq_cons.mp h).2
      exact absurd h2 (goSplit_ne_nil sep rest (sep.length - 1))
    · rw [if_neg hc] at h
      cases hg : goSplit sep rest 0 with
      | nil => exact absurd hg (goSplit_ne_nil sep rest 0)
      | cons a l =>
        rw [hg] at h
        simp [List.modifyHead] at h
        obtain ⟨hp, hl⟩ := h
        subst hl
        have := goSplit_single sep rest a hg
        subst this
        exact hp.symm

/-- All pieces of a split except the last (`events.pop()` leaves these). -/
def firstPieces : List Str → List Str
  | [] => []
  | [_] => []
  | a :: q :: rest => a :: firstPieces (q :: rest)

/-- The last piece of a split (`events.pop() || ..` keeps this as the buffer). -/
def lastPiece : List Str → Str
  | [] => []
  | [p] => p
  | _ :: q :: rest => lastPiece (q :: rest)

theorem firstPieces_cons_of_ne (a : Str) (l : List Str) (h : l ≠ []) :
    firstPieces (a :: l) = a :: firstPieces l := by
  cases l with
  | nil => exact absurd rfl h
  | cons q rest => rfl

theorem lastPiece_cons_of_ne (a : Str) (l : List Str) (h : l ≠ []) :
    lastPiece (a :: l) = lastPiece l := by
  cases l with
  | nil => exact absurd rfl h
  | cons q rest => rfl

theorem isPrefixOf_length_le (p s : Str) (h : p.isPrefixOf s = true) :
    p.length ≤ s.length :=
  (List.isPrefixOf_iff_prefix.mp h).length_le

theorem isPrefixOf_append_left (p s y : Str) (h : p.isPrefixOf s = true) :
    p.isPrefixOf (s ++ y) = true :=
  List.isPrefixOf_iff_prefix.mpr ((List.isPrefixOf_iff_prefix.mp h).trans (List.prefix_append s y))

theorem isPrefixOf_of_append (p s y : Str) (hl : p.length ≤ s.length)
    (h : p.isPrefixOf (s ++ y) = true) : p.isPrefixOf s = true := by
  have hpre : p <+: s ++ y := List.isPrefixOf_iff_prefix.mp h
  have htake : p = (s ++ y).take p.length := List.prefix_iff_eq_take.mp hpre
  have htake2 : (s ++ y).take p.length = s.take p.length := by
    rw [List.take_append_eq_append_take]
    have : p.length - s.length = 0 := Nat.sub_eq_zero_of_le hl
    simp [this]
  refine List.isPrefixOf_iff_prefix.mpr ?_
  rw [htake, htake2]
  exact List.take_prefix _ _

/-- Leftmost-split composition: splitting `s ++ y` is the same as splitting
`s`, keeping all complete pieces, and re-splitting the last piece of `s`
together with `y`.  This is the invariant behind the incremental decoding
loop, which retains `events.pop()` as its buffer and re-splits it with the
next chunk appended. -/
theorem splitOn_append (sep : Str) (hsep : sep ≠ []) :
    ∀ (s y : Str), splitOn sep (s ++ y) =
      firstPieces (splitOn sep s) ++ splitOn sep (lastPiece (splitOn sep s) ++ y) := by
  have H : ∀ n (s : Str), s.length = n → ∀ y, splitOn sep (s ++ y) =
      firstPieces (splitOn sep s) ++ splitOn sep (lastPiece (splitOn sep s) ++ y) := by
    intro n
    induction n using Nat.strong_induction_on with
    | _ n ih =>
      intro s hs y
      match s with
      | [] =>
        simp [splitOn, goSplit, firstPieces, lastPiece]
      | c :: rest =>
        by_cases h1 : sep.isPrefixOf (c :: rest) = true
        · -- a full separator match inside `s`
          have hlen : sep.length ≤ rest.length + 1 := by
            simpa using isPrefixOf_length_le sep (c :: rest) h1
          have hk : sep.length - 1 ≤ rest.length := by omega
          have h1y : sep.isPrefixOf ((c :: rest) ++ y) = true :=
            isPrefixOf_append_left sep (c :: rest) y h1
          have hsplit : splitOn sep (c :: rest) =
              [] :: splitOn sep (rest.drop (sep.length - 1)) := by
            show goSplit sep (c :: rest) 0 = _
            unfold goSplit
            rw [if_pos ⟨hsep, h1⟩, goSplit_skip sep (sep.length - 1) rest hk]
            rfl
          have hsplity : splitOn sep ((c :: rest) ++ y) =
              [] :: splitOn sep (rest.drop (sep.length - 1) ++ y) := by
            show goSplit sep (c :: (rest ++ y)) 0 = _
            unfold goSplit
            rw [if_pos ⟨hsep, by simpa using h1y⟩,
              goSplit_skip sep (sep.length - 1) (rest ++ y) (by simp; omega)]
            rw [List.drop_append_eq_append_drop]
            have h0 : sep.length - 1 - rest.length = 0 := by omega
            rw [h0, List.drop_zero]
            rfl
          have hlt : (rest.drop (sep.length - 1)).length < n := by
            simp at hs ⊢; omega
          have hIH := ih _ hlt (rest.drop (sep.length - 1)) rfl y
          have hne := splitOn_ne_nil sep (rest.drop (sep.length - 1))
          rw [hsplity, hsplit, firstPieces_cons_of_ne _ _ hne, lastPiece_cons_of_ne _ _ hne,
            hIH]
          rfl
        · by_cases h2 : sep.isPrefixOf ((c :: rest) ++ y) = true
          · -- a separator match begins in `s` but is completed only by `y`:
            -- then `s` is shorter than the separator and has no match at all
            have hshort : (c :: rest).length < sep.length := by
              by_contra hge
              exact h1 (isPrefixOf_of_append sep (c :: rest) y (by omega) h2)
            have hnom : ∀ i, ¬ sep.isPrefixOf ((c :: rest).drop i) = true := by
              intro i hpf
              have hle := isPrefixOf_length_le sep _ hpf
              have h3 : ((c :: rest).drop i).length ≤ (c :: rest).length := by
                rw [List.length_drop]; omega
              omega
            have hsing : splitOn sep (c :: rest) = [c :: rest] :=
              goSplit_no_match sep (c :: rest) hnom
            rw [hsing]
            rfl
          · -- no separator match at this position even with `y` appended
            have h2' : ¬ (sep ≠ [] ∧ sep.isPrefixOf (c :: (rest ++ y))) := by
              intro hc
              exact h2 (by simpa using hc.2)
            have h1' : ¬ (sep ≠ [] ∧ sep.isPrefixOf (c :: rest)) := by
              intro hc
              exact h1 hc.2
            have hL : splitOn sep ((c :: rest) ++ y) =
                (splitOn sep (rest ++ y)).modifyHead (c :: ·) := by
              show goSplit sep (c :: (rest ++ y)) 0 = _
              unfold goSplit
              rw [if_neg h2']
              rfl
            have hR : splitOn sep (c :: rest) =
                (splitOn sep rest).modifyHead (c :: ·) := by
              show goSplit sep (c :: rest) 0 = _
              unfold goSplit
              rw [if_neg h1']
              rfl
            have hlt : rest.length < n := by simp at hs; omega
            have hIH := ih _ hlt rest rfl y
            cases hrest : splitOn sep rest with
            | nil => exact absurd hrest (splitOn_ne_nil sep rest)
            | cons p ps =>
              rw [hrest] at hIH
              cases ps with
              | nil =>
                have hp : p = rest := goSplit_single sep rest p hrest
                subst hp
                rw [hL, hR, hrest]
                simp only [List.modifyHead, firstPieces, lastPiece]
                exact hL.symm
              | cons q ps2 =>
                rw [hL, hR, hrest, hIH]
                rfl
  intro s y
  exact H s.length s rfl y

/-! ## The tolerant payload matcher

Model of the regular expression
`'contentBlockDelta':\s*\{[^}]*'text':\s*'([^']*)'` under ECMA-262
leftmost-match, greedy-with-backtracking semantics, and of
`'stopReason':\s*'tool_use'`.  Both patterns consist of literal runs,
whitespace stars whose follower is never a whitespace character (so the
greedy star is deterministic), one bracket star `[^}]*` whose backtracking
is modelled by trying the longest admissible run first, and a capturing
bracket star `[^']*` whose follower is the excluded quote (so the capture
is the maximal quote-free run). -/

/-- The literal `'contentBlockDelta':`. -/
def cbdKey : Str := [squote] ++ "contentBlockDelta".toList ++ [squote, ':']

/-- The literal `'text':`. -/
def textKey : Str := [squote] ++ "text".toList ++ [squote, ':']

/-- The literal `'stopReason':`. -/
def stopKey : Str := [squote] ++ "stopReason".toList ++ [squote, ':']

/-- The literal `'tool_use'`. -/
def toolUseKey : Str := [squote] ++ "tool_use".toList ++ [squote]

/-- Continue the match after the opening brace at a candidate backtracking
position: expects `'text':`, optional whitespace, a quote, the capture
(maximal quote-free run) and the closing quote. -/
def contAt (s : Str) : Option Str :=
  match stripPfx textKey s with
  | none => none
  | some s1 =>
    match s1.dropWhile jsSpace with
    | [] => none
    | c :: s3 =>
      if c = squote then
        match s3.drop ((s3.takeWhile (fun d => ¬ d = squote)).length) with
        | [] => none
        | d :: _ =>
          if d = squote then some (s3.takeWhile (fun d => ¬ d = squote)) else none
      else none

/-- Greedy `[^}]*` with backtracking: try the longest run of
non-closing-brace characters first, shrinking until the continuation
matches. -/
def bodyMatch (s : Str) : Option Str :=
  (List.range ((s.takeWhile (fun d => ¬ d = rbrace)).length + 1)).reverse.findSome?
    (fun k => contAt (s.drop k))

/-- Attempt the whole pattern anchored at the start of `s`. -/
def matchCBDAt (s : Str) : Option Str :=
  match stripPfx cbdKey s with
  | none => none
  | some s1 =>
    match s1.dropWhile jsSpace with
    | [] => none
    | c :: s2 => if c = lbrace then bodyMatch s2 else none

/-- Leftmost match of the tolerant `contentBlockDelta` pattern: the model of
`data.match(...)`, returning the first capture group. -/
def matchCBD : Str → Option Str
  | [] => none
  | c :: rest =>
    match matchCBDAt (c :: rest) with
    | some cap => some cap
    | none => matchCBD rest

/-- Anchored match of `'stopReason':\s*'tool_use'`. -/
def matchStopAt (s : Str) : Bool :=
  match stripPfx stopKey s with
  | none => false
  | some s1 => toolUseKey.isPrefixOf (s1.dropWhile jsSpace)

/-- Unanchored match of `'stopReason':\s*'tool_use'` (the model of
`data.match(/'stopReason':\s*'tool_use'/) !== null`). -/
def matchStop : Str → Bool
  | [] => false
  | c :: rest => matchStopAt (c :: rest) || matchStop rest

/-! ## The unescape chains

`parseSSEResponse` runs
`.replace(/\\n/g, newline).replace(/\\t/g, tab).replace(/\\'/g, quote).replace(/\\"/g, dquote)`;
`processSSEBuffer` runs the same chain with an additional leading
`.replace(/\\\\n/g, newline)` pass (pattern: two backslashes then `n`). -/

/-- The unescape chain of `parseSSEResponse` (buffered path). -/
def unescapeBuffered (s : Str) : Str :=
  replaceAll [bslash, dquote] [dquote]
    (replaceAll [bslash, squote] [squote]
      (replaceAll [bslash, 't'] [tabChar]
        (replaceAll [bslash, 'n'] [nlChar] s)))

/-- The unescape chain of `processSSEBuffer` (incremental path), with its
extra double-backslash pass first. -/
def unescapeStream (s : Str) : Str :=
  unescapeBuffered (replaceAll [bslash, bslash, 'n'] [nlChar] s)

/-! ## Frame processing -/

/-- The fixed interim notice emitted on a tool-use stop reason. -/
def toolUseMessage : Str := "\n> 資料查詢中...請稍候\n\n".toList

/-- The literal prefix `data: `. -/
def dataPrefix : Str := "data: ".toList

/-- Extract the data payload of one frame: the first line starting with
`data: `, with the prefix stripped; the empty string when no such line
exists (both entry points share this scan). -/
def dataLine (eventData : Str) : Str :=
  match (splitOn [nlChar] eventData).find? (fun l => dataPrefix.isPrefixOf l) with
  | some l => l.drop dataPrefix.length
  | none => []

/-- The chunk texts emitted by `processSSEBuffer` for one data payload:
a tolerant-pattern text delta (if present, with a non-empty capture),
then the interim notice if the payload signals a tool-use stop. -/
def processSSEBufferData (data : Str) : List Str :=
  (match matchCBD data with
   | some cap => if cap ≠ [] then [unescapeStream cap] else []
   | none => []) ++
  (if matchStop data then [toolUseMessage] else [])

/-- The chunk texts emitted by `processSSEBuffer` for one frame. -/
def processSSEBuffer (eventData : Str) : List Str :=
  if dataLine eventData ≠ [] then processSSEBufferData (dataLine eventData) else []

/-- The chunk emitted by the strict-parse fallback (`JSON.parse` +
`extractTextFromEvent`, guarded by `if (textContent)`).  The source of
`extractTextFromEvent` is not part of the decoder file; the fallback is
therefore kept parametric: `fb` returns `none` when the payload is not
valid strict structured data (mirroring the swallowed parse exception)
and `some t` when a generic text delta `t` was found. -/
def fallbackEmit (fb : Str → Option Str) (d : Str) : List Str :=
  match fb d with
  | some t => if t ≠ [] then [t] else []
  | none => []

/-- The chunk texts emitted by `parseSSEResponse` for one frame: the
tolerant match with a non-empty capture wins; otherwise the strict-parse
fallback runs. -/
def processFrameBuffered (fb : Str → Option Str) (event : Str) : List Str :=
  if dataLine event ≠ [] then
    match matchCBD (dataLine event) with
    | some cap =>
      if cap ≠ [] then [unescapeBuffered cap] else fallbackEmit fb (dataLine event)
    | none => fallbackEmit fb (dataLine event)
  else []

theorem processFrameBuffered_nil (fb : Str → Option Str) (e : Str)
    (hd : dataLine e = []) : processFrameBuffered fb e = [] := by
  unfold processFrameBuffered
  rw [if_neg (by simpa using hd)]

theorem processFrameBuffered_delta (fb : Str → Option Str) (e cap : Str)
    (hd : ¬ dataLine e = []) (hm : matchCBD (dataLine e) = some cap)
    (hc : ¬ cap = []) : processFrameBuffered fb e = [unescapeBuffered cap] := by
  unfold processFrameBuffered
  rw [if_pos (by simpa using hd), hm]
  show (if cap ≠ [] then [unescapeBuffered cap] else fallbackEmit fb (dataLine e)) = _
  rw [if_pos (by simpa using hc)]

theorem processFrameBuffered_noMatch (fb : Str → Option Str) (e : Str)
    (hd : ¬ dataLine e = []) (hm : matchCBD (dataLine e) = none) :
    processFrameBuffered fb e = fallbackEmit fb (dataLine e) := by
  unfold processFrameBuffered
  rw [if_pos (by simpa using hd), hm]

theorem processFrameBuffered_emptyCap (fb : Str → Option Str) (e cap : Str)
    (hd : ¬ dataLine e = []) (hm : matchCBD (dataLine e) = some cap)
    (hc : cap = []) : processFrameBuffered fb e = fallbackEmit fb (dataLine e) := by
  unfold processFrameBuffered
  rw [if_pos (by simpa using hd), hm]
  show (if cap ≠ [] then [unescapeBuffered cap] else fallbackEmit fb (dataLine e)) = _
  rw [if_neg (by simpa using hc)]

theorem fallbackEmit_none (fb : Str → Option Str) (d : Str) (hf : fb d = none) :
    fallbackEmit fb d = [] := by
  unfold fallbackEmit
  rw [hf]

theorem fallbackEmit_mem (fb : Str → Option Str) (d t : Str)
    (h : t ∈ fallbackEmit fb d) : fb d = some t := by
  unfold fallbackEmit at h
  split at h
  · split at h
    · rename_i t0 hf _
      rw [List.mem_singleton.mp h]
      exact hf
    · simp at h
  · simp at h

/-! ## Callback traces -/

/-- One callback invocation observed by the caller. -/
inductive CbEvent where
  | chunk (text : Str)
  | complete
  | errorCb (kind : Str)
  deriving DecidableEq

/-- Taxonomy of `ErrorContext.type` (`src/src/types/aws.ts` / guards). -/
inductive ErrType where
  | validation | authentication | network | streaming | api | unknown
  deriving DecidableEq

/-- Model of `ErrorContext` (the `details` and `timestamp` fields carry no
decoder logic and are omitted: `timestamp` is a wall-clock read). -/
structure ErrorContext where
  type : ErrType
  code : Str
  message : Str
  deriving DecidableEq

/-- Full callback trace including error contexts. -/
inductive TraceEvent where
  | chunk (text : Str)
  | complete
  | errorCb (ctx : ErrorContext)
  deriving DecidableEq

/-- Model of `parseSSEResponse` (the buffered path): split on the double
newline, keep frames that are non-empty after trimming, emit each frame's
chunks in order, then invoke `onComplete`.  The per-event `try`/`catch`
blocks of the source cannot fire in this pure model (all operations are
total), and the outer `catch` is reachable only through a throwing
callback, which the model excludes. -/
def parseSSEResponse (fb : Str → Option Str) (sseText : Str) : List TraceEvent :=
  ((((splitOn [nlChar, nlChar] sseText).filter (fun e => jsTrim e ≠ [])).flatMap
    (processFrameBuffered fb)).map TraceEvent.chunk) ++ [TraceEvent.complete]

/-! ## UTF-8 incremental decoding (`TextDecoder` with `stream: true`)

The decoder model keeps an incomplete trailing byte sequence as pending
state between chunks, exactly as a streaming `TextDecoder` does.  Two
deliberate simplifications, irrelevant to every claim below (which only
ever feed the decoder valid UTF-8): a leading byte-order mark is decoded
as U+FEFF rather than stripped, and invalid sequences are not replaced by
U+FFFD. -/

/-- Sequence length indicated by a UTF-8 lead byte. -/
def utf8Len (b : Nat) : Nat :=
  if b < 0xC0 then 1 else if b < 0xE0 then 2 else if b < 0xF0 then 3 else 4

/-- Scalar value of a complete UTF-8 sequence. -/
def utf8DecChar : List Nat → Nat
  | [b0] => b0
  | [b0, b1] => (b0 - 0xC0) * 0x40 + (b1 - 0x80)
  | [b0, b1, b2] => (b0 - 0xE0) * 0x1000 + (b1 - 0x80) * 0x40 + (b2 - 0x80)
  | [b0, b1, b2, b3] =>
    (b0 - 0xF0) * 0x40000 + (b1 - 0x80) * 0x1000 + (b2 - 0x80) * 0x40 + (b3 - 0x80)
  | _ => 0

/-- Decode as many complete sequences as the bytes allow; the remainder is
the pending state carried to the next chunk. -/
def decodeGo : List Nat → Str × List Nat
  | [] => ([], [])
  | [b] =>
    if utf8Len b = 1 then ([Char.ofNat (utf8DecChar [b])], []) else ([], [b])
  | [b, b1] =>
    if utf8Len b = 1 then
      ((Char.ofNat (utf8DecChar [b])) :: (decodeGo [b1]).1, (decodeGo [b1]).2)
    else if utf8Len b = 2 then ([Char.ofNat (utf8DecChar [b, b1])], [])
    else ([], [b, b1])
  | [b, b1, b2] =>
    if utf8Len b = 1 then
      ((Char.ofNat (utf8DecChar [b])) :: (decodeGo [b1, b2]).1, (decodeGo [b1, b2]).2)
    else if utf8Len b = 2 then
      ((Char.ofNat (utf8DecChar [b, b1])) :: (decodeGo [b2]).1, (decodeGo [b2]).2)
    else if utf8Len b = 3 then ([Char.ofNat (utf8DecChar [b, b1, b2])], [])
    else ([], [b, b1, b2])
  | b :: b1 :: b2 :: b3 :: rest =>
    if utf8Len b = 1 then
      ((Char.ofNat (utf8DecChar [b])) :: (decodeGo (b1 :: b2 :: b3 :: rest)).1,
        (decodeGo (b1 :: b2 :: b3 :: rest)).2)
    else if utf8Len b = 2 then
      ((Char.ofNat (utf8DecChar [b, b1])) :: (decodeGo (b2 :: b3 :: rest)).1,
        (decodeGo (b2 :: b3 :: rest)).2)
    else if utf8Len b = 3 then
      ((Char.ofNat (utf8DecChar [b, b1, b2])) :: (decodeGo (b3 :: rest)).1,
        (decodeGo (b3 :: rest)).2)
    else
      ((Char.ofNat (utf8DecChar [b, b1, b2, b3])) :: (decodeGo rest).1, (decodeGo rest).2)

/-- UTF-8 encoding of one scalar value. -/
def utf8EncodeChar (c : Char) : List Nat :=
  let v := c.toNat
  if v < 0x80 then [v]
  else if v < 0x800 then [0xC0 + v / 0x40, 0x80 + v % 0x40]
  else if v < 0x10000 then
    [0xE0 + v / 0x1000, 0x80 + v / 0x40 % 0x40, 0x80 + v % 0x40]
  else
    [0xF0 + v / 0x40000, 0x80 + v / 0x1000 % 0x40, 0x80 + v / 0x40 % 0x40, 0x80 + v % 0x40]

/-- UTF-8 encoding of a string (the wire form of the response body). -/
def utf8Encode (t : Str) : List Nat := t.flatMap utf8EncodeChar

/-! ## The incremental path (`processReadableStream`) -/

/-- How a readable-stream read loop ends: normal end-of-data, or the
reader/decoder throwing (a stream-level read failure). -/
inductive StreamEnd where
  | eof
  | readError (isError : Bool) (message : Str)

/-- The `ErrorContext` built in `processReadableStream`'s catch block. -/
def streamErrCtx : StreamEnd → ErrorContext
  | .eof => { type := .streaming, code := "READABLE_STREAM_ERROR".toList, message := [] }
  | .readError isErr msg =>
    { type := .streaming, code := "READABLE_STREAM_ERROR".toList,
      message := if isErr then msg else "ReadableStream processing failed".toList }

/-- The final event of the read loop per its ending. -/
def endEvent : StreamEnd → TraceEvent
  | .eof => TraceEvent.complete
  | e => TraceEvent.errorCb (streamErrCtx e)

/-- The chunk texts emitted for a run of complete frames: each frame that
is non-empty after trimming goes through `processSSEBuffer`. -/
def frameEmits (events : List Str) : List Str :=
  events.flatMap (fun e => if jsTrim e ≠ [] then processSSEBuffer e else [])

/-- String-level loop body shared by the byte-level model: split the text
buffer extended by the decoded chunk, process the complete frames, keep
the last piece. -/
def streamLoopStr (ending : StreamEnd) : List Str → Str → List TraceEvent
  | [], buffer =>
    match ending with
    | .eof =>
      (if jsTrim buffer ≠ [] then (processSSEBuffer buffer).map TraceEvent.chunk else []) ++
        [TraceEvent.complete]
    | e => [TraceEvent.errorCb (streamErrCtx e)]
  | c :: rest, buffer =>
    ((frameEmits (firstPieces (splitOn [nlChar, nlChar] (buffer ++ c)))).map
      TraceEvent.chunk) ++
      streamLoopStr ending rest (lastPiece (splitOn [nlChar, nlChar] (buffer ++ c)))

/-- The loop body of `processReadableStream`, one iteration per byte chunk
pulled from the reader: decode incrementally (carrying the pending bytes),
append to the text buffer, split on the double newline, process every
complete frame that is non-empty after trimming, and keep the last piece
as the new buffer.  At end-of-data the trailing buffer is processed as a
final frame when non-empty after trimming, then `onComplete` fires; a
read failure instead produces exactly one streaming `ErrorContext` via
`onError`. -/
def streamLoop (ending : StreamEnd) : List (List Nat) → List Nat → Str → List TraceEvent
  | [], _, buffer =>
    match ending with
    | .eof =>
      (if jsTrim buffer ≠ [] then (processSSEBuffer buffer).map TraceEvent.chunk else []) ++
        [TraceEvent.complete]
    | e => [TraceEvent.errorCb (streamErrCtx e)]
  | b :: rest, pending, buffer =>
    ((frameEmits (firstPieces
      (splitOn [nlChar, nlChar] (buffer ++ (decodeGo (pending ++ b)).1)))).map
      TraceEvent.chunk) ++
      streamLoop ending rest (decodeGo (pending ++ b)).2
        (lastPiece (splitOn [nlChar, nlChar] (buffer ++ (decodeGo (pending ++ b)).1)))

/-- Model of `processReadableStream`: the byte chunks are the successful
reads, `ending` tells how the loop ends. -/
def processReadableStream (bchunks : List (List Nat)) (ending : StreamEnd) : List TraceEvent :=
  streamLoop ending bchunks [] []

/-- Concatenation of all chunk texts of a trace (the text the user sees). -/
def chunkConcat : List TraceEvent → Str
  | [] => []
  | TraceEvent.chunk t :: rest => t ++ chunkConcat rest
  | _ :: rest => chunkConcat rest

/-- The chunk texts of a trace, in order. -/
def chunkTexts : List TraceEvent → List Str
  | [] => []
  | TraceEvent.chunk t :: rest => t :: chunkTexts rest
  | _ :: rest => chunkTexts rest

theorem utf8Len_cases (b : Nat) :
    utf8Len b = 1 ∨ utf8Len b = 2 ∨ utf8Len b = 3 ∨ utf8Len b = 4 := by
  unfold utf8Len
  split_ifs <;> simp

theorem decodeGo_cons1 (b : Nat) (rest : List Nat) (h : utf8Len b = 1) :
    decodeGo (b :: rest) =
      ((Char.ofNat (utf8DecChar [b])) :: (decodeGo rest).1, (decodeGo rest).2) := by
  match rest with
  | [] =>
    conv_lhs => rw [decodeGo]
    simp [h, decodeGo]
  | [b1] =>
    conv_lhs => rw [decodeGo]
    simp [h]
  | [b1, b2] =>
    conv_lhs => rw [decodeGo]
    simp [h]
  | b1 :: b2 :: b3 :: r =>
    conv_lhs => rw [decodeGo]
    simp [h]

theorem decodeGo_pend2 (b : Nat) (h : utf8Len b = 2) : decodeGo [b] = ([], [b]) := by
  conv_lhs => rw [decodeGo]
  simp [h, show ¬ utf8Len b = 1 by omega]

theorem decodeGo_cons2 (b b1 : Nat) (rest : List Nat) (h : utf8Len b = 2) :
    decodeGo (b :: b1 :: rest) =
      ((Char.ofNat (utf8DecChar [b, b1])) :: (decodeGo rest).1, (decodeGo rest).2) := by
  have h1 : ¬ utf8Len b = 1 := by omega
  match rest with
  | [] =>
    conv_lhs => rw [decodeGo]
    simp [h, h1, decodeGo]
  | [b2] =>
    conv_lhs => rw [decodeGo]
    simp [h, h1]
  | b2 :: b3 :: r =>
    conv_lhs => rw [decodeGo]
    simp [h, h1]

theorem decodeGo_pend3a (b : Nat) (h : utf8Len b = 3) : decodeGo [b] = ([], [b]) := by
  conv_lhs => rw [decodeGo]
  simp [show ¬ utf8Len b = 1 by omega]

theorem decodeGo_pend3b (b b1 : Nat) (h : utf8Len b = 3) :
    decodeGo [b, b1] = ([], [b, b1]) := by
  conv_lhs => rw [decodeGo]
  simp [h, show ¬ utf8Len b = 1 by omega, show ¬ utf8Len b = 2 by omega]

theorem decodeGo_cons3 (b b1 b2 : Nat) (rest : List Nat) (h : utf8Len b = 3) :
    decodeGo (b :: b1 :: b2 :: rest) =
      ((Char.ofNat (utf8DecChar [b, b1, b2])) :: (decodeGo rest).1, (decodeGo rest).2) := by
  have h1 : ¬ utf8Len b = 1 := by omega
  have h2 : ¬ utf8Len b = 2 := by omega
  match rest with
  | [] =>
    conv_lhs => rw [decodeGo]
    simp [h, h1, h2, decodeGo]
  | b3 :: r =>
    conv_lhs => rw [decodeGo]
    simp [h, h1, h2]

theorem decodeGo_pend4a (b : Nat) (h : utf8Len b = 4) : decodeGo [b] = ([], [b]) := by
  conv_lhs => rw [decodeGo]
  simp [show ¬ utf8Len b = 1 by omega]

theorem decodeGo_pend4b (b b1 : Nat) (h : utf8Len b = 4) :
    decodeGo [b, b1] = ([], [b, b1]) := by
  conv_lhs => rw [decodeGo]
  simp [show ¬ utf8Len b = 1 by omega, show ¬ utf8Len b = 2 by omega]

theorem decodeGo_pend4c (b b1 b2 : Nat) (h : utf8Len b = 4) :
    decodeGo [b, b1, b2] = ([], [b, b1, b2]) := by
  conv_lhs => rw [decodeGo]
  simp [show ¬ utf8Len b = 1 by omega, show ¬ utf8Len b = 2 by omega,
    show ¬ utf8Len b = 3 by omega]

theorem decodeGo_cons4 (b b1 b2 b3 : Nat) (rest : List Nat) (h : utf8Len b = 4) :
    decodeGo (b :: b1 :: b2 :: b3 :: rest) =
      ((Char.ofNat (utf8DecChar [b, b1, b2, b3])) :: (decodeGo rest).1, (decodeGo rest).2) := by
  conv_lhs => rw [decodeGo]
  simp [show ¬ utf8Len b = 1 by omega, show ¬ utf8Len b = 2 by omega,
    show ¬ utf8Len b = 3 by omega]

/-- Incremental decoding composes: decoding `B1 ++ B2` decodes `B1`, then
the pending remainder of `B1` prepended to `B2`. -/
theorem decodeGo_append (B1 B2 : List Nat) :
    decodeGo (B1 ++ B2) =
      ((decodeGo B1).1 ++ (decodeGo ((decodeGo B1).2 ++ B2)).1,
        (decodeGo ((decodeGo B1).2 ++ B2)).2) := by
  have H : ∀ n (B1 : List Nat), B1.length = n → ∀ B2 : List Nat,
      decodeGo (B1 ++ B2) =
        ((decodeGo B1).1 ++ (decodeGo ((decodeGo B1).2 ++ B2)).1,
          (decodeGo ((decodeGo B1).2 ++ B2)).2) := by
    intro n
    induction n using Nat.strong_induction_on with
    | _ n ih =>
      intro B1 hlen B2
      match B1 with
      | [] => simp [decodeGo]
      | b :: rest =>
        rcases utf8Len_cases b with h | h | h | h
        · rw [List.cons_append, decodeGo_cons1 b _ h, decodeGo_cons1 b rest h]
          have hr := ih rest.length (by simp at hlen; omega) rest rfl B2
          rw [hr]
          simp
        · match rest with
          | [] =>
            rw [decodeGo_pend2 b h]
            simp
          | b1 :: rest2 =>
            rw [List.cons_append, List.cons_append, decodeGo_cons2 b b1 _ h,
              decodeGo_cons2 b b1 rest2 h]
            have hr := ih rest2.length (by simp at hlen; omega) rest2 rfl B2
            rw [hr]
            simp
        · match rest with
          | [] =>
            rw [decodeGo_pend3a b h]
            simp
          | [b1] =>
            rw [decodeGo_pend3b b b1 h]
            simp
          | b1 :: b2 :: rest3 =>
            rw [List.cons_append, List.cons_append, List.cons_append,
              decodeGo_cons3 b b1 b2 _ h, decodeGo_cons3 b b1 b2 rest3 h]
            have hr := ih rest3.length (by simp at hlen; omega) rest3 rfl B2
            rw [hr]
            simp
        · match rest with
          | [] =>
            rw [decodeGo_pend4a b h]
            simp
          | [b1] =>
            rw [decodeGo_pend4b b b1 h]
            simp
          | [b1, b2] =>
            rw [decodeGo_pend4c b b1 b2 h]
            simp
          | b1 :: b2 :: b3 :: rest4 =>
            rw [List.cons_append, List.cons_append, List.cons_append, List.cons_append,
              decodeGo_cons4 b b1 b2 b3 _ h, decodeGo_cons4 b b1 b2 b3 rest4 h]
            have hr := ih rest4.length (by simp at hlen; omega) rest4 rfl B2
            rw [hr]
            simp
  exact H B1.length B1 rfl B2

/-- Decoding the UTF-8 encoding of one character consumes exactly its bytes. -/
theorem decode_encode_char (c : Char) (rest : List Nat) :
    decodeGo (utf8EncodeChar c ++ rest) = (c :: (decodeGo rest).1, (decodeGo rest).2) := by
  have hv : c.toNat < 0x110000 := by
    rcases c.valid with h | ⟨h1, h2⟩
    · exact Nat.lt_trans h (by norm_num)
    · exact h2
  by_cases h1 : c.toNat < 0x80
  · have he : utf8EncodeChar c = [c.toNat] := by
      simp only [utf8EncodeChar]
      rw [if_pos h1]
    have hl : utf8Len c.toNat = 1 := by
      unfold utf8Len
      rw [if_pos (by omega)]
    rw [he, List.singleton_append, decodeGo_cons1 _ _ hl]
    simp [utf8DecChar, Char.ofNat_toNat]
  · by_cases h2 : c.toNat < 0x800
    · have he : utf8EncodeChar c = [0xC0 + c.toNat / 0x40, 0x80 + c.toNat % 0x40] := by
        simp only [utf8EncodeChar]
        rw [if_neg h1, if_pos h2]
      have hl : utf8Len (0xC0 + c.toNat / 0x40) = 2 := by
        unfold utf8Len
        rw [if_neg (by omega), if_pos (by omega)]
      rw [he, List.cons_append, List.cons_append, List.nil_append, decodeGo_cons2 _ _ _ hl]
      have harith : (0xC0 + c.toNat / 0x40 - 0xC0) * 0x40 + (0x80 + c.toNat % 0x40 - 0x80) =
          c.toNat := by omega
      simp only [utf8DecChar, harith, Char.ofNat_toNat]
    · by_cases h3 : c.toNat < 0x10000
      · have he : utf8EncodeChar c =
            [0xE0 + c.toNat / 0x1000, 0x80 + c.toNat / 0x40 % 0x40, 0x80 + c.toNat % 0x40] := by
          simp only [utf8EncodeChar]
          rw [if_neg h1, if_neg h2, if_pos h3]
        have hl : utf8Len (0xE0 + c.toNat / 0x1000) = 3 := by
          unfold utf8Len
          rw [if_neg (by omega), if_neg (by omega), if_pos (by omega)]
        rw [he, List.cons_append, List.cons_append, List.cons_append, List.nil_append,
          decodeGo_cons3 _ _ _ _ hl]
        have harith : (0xE0 + c.toNat / 0x1000 - 0xE0) * 0x1000 +
            (0x80 + c.toNat / 0x40 % 0x40 - 0x80) * 0x40 + (0x80 + c.toNat % 0x40 - 0x80) =
            c.toNat := by omega
        simp only [utf8DecChar, harith, Char.ofNat_toNat]
      · have he : utf8EncodeChar c =
            [0xF0 + c.toNat / 0x40000, 0x80 + c.toNat / 0x1000 % 0x40,
              0x80 + c.toNat / 0x40 % 0x40, 0x80 + c.toNat % 0x40] := by
          simp only [utf8EncodeChar]
          rw [if_neg h1, if_neg h2, if_neg h3]
        have hl : utf8Len (0xF0 + c.toNat / 0x40000) = 4 := by
          unfold utf8Len
          rw [if_neg (by omega), if_neg (by omega), if_neg (by omega)]
        rw [he, List.cons_append, List.cons_append, List.cons_append, List.cons_append,
          List.nil_append, decodeGo_cons4 _ _ _ _ _ hl]
        have harith : (0xF0 + c.toNat / 0x40000 - 0xF0) * 0x40000 +
            (0x80 + c.toNat / 0x1000 % 0x40 - 0x80) * 0x1000 +
            (0x80 + c.toNat / 0x40 % 0x40 - 0x80) * 0x40 + (0x80 + c.toNat % 0x40 - 0x80) =
            c.toNat := by omega
        simp only [utf8DecChar, harith, Char.ofNat_toNat]

/-- Decoding a complete valid encoding recovers the text with no pending bytes. -/
theorem decode_encode (t : Str) : decodeGo (utf8Encode t) = (t, []) := by
  induction t with
  | nil => simp [utf8Encode, decodeGo]
  | cons c rest ih =>
    have : utf8Encode (c :: rest) = utf8EncodeChar c ++ utf8Encode rest := by
      simp [utf8Encode]
    rw [this, decode_encode_char, ih]

/-- The pending remainder of a decode is stable: decoding it alone yields
nothing (it is an incomplete sequence, or empty). -/
theorem decodeGo_pending (X : List Nat) :
    decodeGo ((decodeGo X).2) = ([], (decodeGo X).2) := by
  have H : ∀ n (X : List Nat), X.length = n →
      decodeGo ((decodeGo X).2) = ([], (decodeGo X).2) := by
    intro n
    induction n using Nat.strong_induction_on with
    | _ n ih =>
      intro X hlen
      match X with
      | [] => simp [decodeGo]
      | b :: rest =>
        rcases utf8Len_cases b with h | h | h | h
        · rw [decodeGo_cons1 b rest h]
          exact ih rest.length (by simp at hlen; omega) rest rfl
        · match rest with
          | [] => rw [decodeGo_pend2 b h]; rw [decodeGo_pend2 b h]
          | b1 :: rest2 =>
            rw [decodeGo_cons2 b b1 rest2 h]
            exact ih rest2.length (by simp at hlen; omega) rest2 rfl
        · match rest with
          | [] => rw [decodeGo_pend3a b h]; rw [decodeGo_pend3a b h]
          | [b1] => rw [decodeGo_pend3b b b1 h]; rw [decodeGo_pend3b b b1 h]
          | b1 :: b2 :: rest3 =>
            rw [decodeGo_cons3 b b1 b2 rest3 h]
            exact ih rest3.length (by simp at hlen; omega) rest3 rfl
        · match rest with
          | [] => rw [decodeGo_pend4a b h]; rw [decodeGo_pend4a b h]
          | [b1] => rw [decodeGo_pend4b b b1 h]; rw [decodeGo_pend4b b b1 h]
          | [b1, b2] => rw [decodeGo_pend4c b b1 b2 h]; rw [decodeGo_pend4c b b1 b2 h]
          | b1 :: b2 :: b3 :: rest4 =>
            rw [decodeGo_cons4 b b1 b2 b3 rest4 h]
            exact ih rest4.length (by simp at hlen; omega) rest4 rfl
  exact H X.length X rfl

/-- The text chunks produced by the streaming decoder across the byte
chunks of a read loop. -/
def decodeChunks : List (List Nat) → List Nat → List Str
  | [], _ => []
  | b :: rest, pend =>
    (decodeGo (pend ++ b)).1 :: decodeChunks rest (decodeGo (pend ++ b)).2

/-- The concatenation of the incrementally decoded text chunks is the
one-shot decode of all the bytes. -/
theorem decodeChunks_flatten : ∀ (bs : List (List Nat)) (pend : List Nat),
    decodeGo pend = ([], pend) →
    (decodeChunks bs pend).flatten = (decodeGo (pend ++ bs.flatten)).1
  | [], pend, hp => by simp [decodeChunks, hp]
  | b :: rest, pend, hp => by
    have hp2 : decodeGo ((decodeGo (pend ++ b)).2) = ([], (decodeGo (pend ++ b)).2) :=
      decodeGo_pending (pend ++ b)
    have ihr := decodeChunks_flatten rest ((decodeGo (pend ++ b)).2) hp2
    have happ := decodeGo_append (pend ++ b) rest.flatten
    simp only [decodeChunks, List.flatten_cons, List.flatten, ihr]
    rw [← List.append_assoc, happ]

theorem firstPieces_append (A B : List Str) (hB : B ≠ []) :
    firstPieces (A ++ B) = A ++ firstPieces B := by
  induction A with
  | nil => rfl
  | cons a A ihA =>
    have hne : A ++ B ≠ [] := by
      intro h
      exact hB (List.append_eq_nil.mp h).2
    rw [List.cons_append, firstPieces_cons_of_ne a _ hne, ihA]
    rfl

theorem lastPiece_append (A B : List Str) (hB : B ≠ []) :
    lastPiece (A ++ B) = lastPiece B := by
  induction A with
  | nil => rfl
  | cons a A ihA =>
    have hne : A ++ B ≠ [] := by
      intro h
      exact hB (List.append_eq_nil.mp h).2
    rw [List.cons_append, lastPiece_cons_of_ne a _ hne, ihA]

theorem firstPieces_lastPiece (A : List Str) (hA : A ≠ []) :
    firstPieces A ++ [lastPiece A] = A := by
  induction A with
  | nil => exact absurd rfl hA
  | cons a A ihA =>
    cases A with
    | nil => rfl
    | cons b A2 =>
      rw [firstPieces_cons_of_ne a _ (by simp), lastPiece_cons_of_ne a _ (by simp),
        List.cons_append, ihA (by simp)]

/-- The byte-level loop is the string-level loop over the incrementally
decoded chunks. -/
theorem streamLoop_eq_str (ending : StreamEnd) :
    ∀ (bs : List (List Nat)) (pend : List Nat) (buffer : Str),
      streamLoop ending bs pend buffer =
        streamLoopStr ending (decodeChunks bs pend) buffer
  | [], _, _ => rfl
  | b :: rest, pend, buffer => by
    simp only [streamLoop, decodeChunks, streamLoopStr]
    rw [streamLoop_eq_str ending rest _ _]

/-- Fusing two adjacent chunks does not change the trace: the loop re-splits
its retained buffer with the next chunk appended. -/
theorem streamLoopStr_merge (ending : StreamEnd) (c1 c2 : Str) (rest : List Str)
    (buffer : Str) :
    streamLoopStr ending (c1 :: c2 :: rest) buffer =
      streamLoopStr ending ((c1 ++ c2) :: rest) buffer := by
  have hsep : ([nlChar, nlChar] : Str) ≠ [] := by simp
  have hne := splitOn_ne_nil [nlChar, nlChar]
    (lastPiece (splitOn [nlChar, nlChar] (buffer ++ c1)) ++ c2)
  have hsplit : splitOn [nlChar, nlChar] (buffer ++ (c1 ++ c2)) =
      firstPieces (splitOn [nlChar, nlChar] (buffer ++ c1)) ++
        splitOn [nlChar, nlChar]
          (lastPiece (splitOn [nlChar, nlChar] (buffer ++ c1)) ++ c2) := by
    rw [← List.append_assoc]
    exact splitOn_append [nlChar, nlChar] hsep (buffer ++ c1) c2
  have hfe : ∀ A B : List Str, frameEmits (A ++ B) = frameEmits A ++ frameEmits B := by
    intro A B
    simp [frameEmits]
  simp only [streamLoopStr]
  rw [hsplit, firstPieces_append _ _ hne, lastPiece_append _ _ hne, hfe,
    List.map_append, List.append_assoc]

/-- A chunk list starting non-empty collapses to its concatenation. -/
theorem streamLoopStr_collapse_cons (ending : StreamEnd) :
    ∀ (chunks : List Str) (c0 buffer : Str),
      streamLoopStr ending (c0 :: chunks) buffer =
        streamLoopStr ending [c0 ++ chunks.flatten] buffer
  | [], c0, buffer => by simp
  | c1 :: rest, c0, buffer => by
    rw [streamLoopStr_merge ending c0 c1 rest buffer,
      streamLoopStr_collapse_cons ending rest (c0 ++ c1) buffer]
    simp

/-- Any chunk list collapses to its concatenation when starting from an
empty buffer. -/
theorem streamLoopStr_collapse (ending : StreamEnd) (chunks : List Str) :
    streamLoopStr ending chunks [] =
      streamLoopStr ending [chunks.flatten] [] := by
  cases chunks with
  | nil =>
    show streamLoopStr ending [] [] = streamLoopStr ending [[]] []
    simp [streamLoopStr, frameEmits, splitOn, goSplit, firstPieces, lastPiece]
  | cons c0 rest => exact streamLoopStr_collapse_cons ending rest c0 []

/-- Any partition of the UTF-8 bytes of a text into read chunks produces
the same trace as delivering the whole encoding in one read. -/
theorem processReadableStream_concat (t : Str) (bs : List (List Nat))
    (hbs : bs.flatten = utf8Encode t) (ending : StreamEnd) :
    processReadableStream bs ending = processReadableStream [utf8Encode t] ending := by
  have h0 : decodeGo ([] : List Nat) = ([], []) := rfl
  have hflat : (decodeChunks bs []).flatten = t := by
    rw [decodeChunks_flatten bs [] h0, List.nil_append, hbs, decode_encode]
  have hone : decodeChunks [utf8Encode t] [] = [t] := by
    simp [decodeChunks, decode_encode]
  rw [processReadableStream, processReadableStream, streamLoop_eq_str, streamLoop_eq_str,
    hone, streamLoopStr_collapse ending (decodeChunks bs []), hflat]

/-- Every trace of the incremental loop is a run of chunk events followed
by exactly one terminal event determined by how the stream ended. -/
theorem streamLoopStr_shape (ending : StreamEnd) :
    ∀ (chunks : List Str) (buffer : Str), ∃ outs : List Str,
      streamLoopStr ending chunks buffer = outs.map TraceEvent.chunk ++ [endEvent ending]
  | [], buffer => by
    cases ending with
    | eof =>
      by_cases h : jsTrim buffer ≠ []
      · exact ⟨processSSEBuffer buffer, by simp [streamLoopStr, h, endEvent]⟩
      · exact ⟨[], by simp [streamLoopStr, h, endEvent]⟩
    | readError isErr msg =>
      exact ⟨[], by simp [streamLoopStr, endEvent]⟩
  | c :: rest, buffer => by
    obtain ⟨outs, houts⟩ := streamLoopStr_shape ending rest
      (lastPiece (splitOn [nlChar, nlChar] (buffer ++ c)))
    refine ⟨frameEmits (firstPieces (splitOn [nlChar, nlChar] (buffer ++ c))) ++ outs, ?_⟩
    simp [streamLoopStr, houts]

/-- The filtered-frame reading of `frameEmits`. -/
theorem frameEmits_filter (E : List Str) :
    frameEmits E = (E.filter (fun e => jsTrim e ≠ [])).flatMap processSSEBuffer := by
  induction E with
  | nil => rfl
  | cons e E ihE =>
    by_cases h : jsTrim e = []
    · simp [frameEmits, List.filter_cons, h] at ihE ⊢
      exact ihE
    · simp [frameEmits, List.filter_cons, h] at ihE ⊢
      rw [ihE]

/-- The frames of a decode operation: the double-newline split, keeping
the pieces that are non-empty after trimming.  Both entry points process
exactly this frame list in order (the incremental path processes the
trailing buffer as its final frame). -/
def framesOf (t : Str) : List Str :=
  (splitOn [nlChar, nlChar] t).filter (fun e => jsTrim e ≠ [])

/-- Delivering the whole text as one chunk processes exactly the frames of
the text, in order, then completes. -/
theorem streamLoopStr_single (t : Str) :
    streamLoopStr StreamEnd.eof [t] [] =
      ((framesOf t).flatMap processSSEBuffer).map TraceEvent.chunk ++
        [TraceEvent.complete] := by
  have hE := splitOn_ne_nil [nlChar, nlChar] t
  have hsplit : firstPieces (splitOn [nlChar, nlChar] t) ++
      [lastPiece (splitOn [nlChar, nlChar] t)] = splitOn [nlChar, nlChar] t :=
    firstPieces_lastPiece _ hE
  have hfe : frameEmits (splitOn [nlChar, nlChar] t) =
      frameEmits (firstPieces (splitOn [nlChar, nlChar] t)) ++
        (if jsTrim (lastPiece (splitOn [nlChar, nlChar] t)) ≠ [] then
          processSSEBuffer (lastPiece (splitOn [nlChar, nlChar] t)) else []) := by
    conv_lhs => rw [← hsplit]
    simp [frameEmits]
  simp only [framesOf]
  rw [← frameEmits_filter]
  show ((frameEmits (firstPieces (splitOn [nlChar, nlChar] ([] ++ t)))).map
      TraceEvent.chunk) ++
      streamLoopStr StreamEnd.eof [] (lastPiece (splitOn [nlChar, nlChar] ([] ++ t))) = _
  rw [List.nil_append, hfe]
  show _ = (List.map TraceEvent.chunk (frameEmits (firstPieces (splitOn [nlChar, nlChar] t)) ++ _)) ++ _
  rw [List.map_append, List.append_assoc]
  congr 1
  by_cases h : jsTrim (lastPiece (splitOn [nlChar, nlChar] t)) ≠ []
  · simp [streamLoopStr, h]
  · simp [streamLoopStr, h]

/-! ## Error classification (`src/src/types/guards.ts`,
`src/src/helpers/aws-bedrock.ts`) -/

/-- A raw JavaScript error value as observed by the classifier and the
helpers: whether it is an `Error` (resp. `TypeError`, `SyntaxError`)
instance, its `name` and `code` properties when present (string-valued),
and its `message` property when present. -/
structure RawError where
  isError : Bool
  isTypeError : Bool
  isSyntaxError : Bool
  name : Option Str
  code : Option Str
  message : Option Str

/-- Model of `isAWSError`: an object with string `code` and `message`
properties. -/
def isAWSError (e : RawError) : Bool :=
  e.code.isSome && e.message.isSome

/-- Model of `classifyError` (guards.ts): substring checks on the `code`
property of AWS-shaped errors, then the `TypeError`/`SyntaxError`
fallbacks, then `unknown`. -/
def classifyError (e : RawError) : ErrType :=
  if isAWSError e then
    if containsSub "Auth".toList (e.code.getD []) ||
        containsSub "Credential".toList (e.code.getD []) then .authentication
    else if containsSub "Network".toList (e.code.getD []) ||
        containsSub "Connection".toList (e.code.getD []) then .network
    else if containsSub "Stream".toList (e.code.getD []) then .streaming
    else .api
  else if e.isTypeError || e.isSyntaxError then .validation
  else .unknown

/-- Model of `getErrorCode` (helpers): prefer `name`, then `code`, then the
fixed fallback. -/
def getErrorCode (e : RawError) : Str :=
  match e.name with
  | some n => n
  | none =>
    match e.code with
    | some c => c
    | none => "UNKNOWN_ERROR".toList

/-- The fixed authentication failure message of `getErrorMessage`. -/
def authFailedMsg : Str := "Authentication failed. Please check your AWS credentials.".toList

/-- Model of `getErrorMessage` (helpers): for `Error` instances, substring
checks on the `message` property select a fixed user-readable message,
falling back to the raw message itself; non-`Error` values get the fixed
unknown-error message. -/
def getErrorMessage (e : RawError) : Str :=
  if e.isError then
    if containsSub "UnauthorizedOperation".toList (e.message.getD []) ||
        containsSub "AccessDenied".toList (e.message.getD []) then authFailedMsg
    else if containsSub "ThrottlingException".toList (e.message.getD []) ||
        containsSub "TooManyRequests".toList (e.message.getD []) then
      "Too many requests. Please wait a moment and try again.".toList
    else if containsSub "ServiceUnavailable".toList (e.message.getD []) ||
        containsSub "InternalError".toList (e.message.getD []) then
      "AWS service is temporarily unavailable. Please try again later.".toList
    else if containsSub "ValidationException".toList (e.message.getD []) then
      "Invalid request format. Please check your message and try again.".toList
    else if containsSub "ResourceNotFound".toList (e.message.getD []) then
      "AWS Bedrock agent not found. Please check your configuration.".toList
    else if containsSub "NetworkingError".toList (e.message.getD []) ||
        containsSub "TimeoutError".toList (e.message.getD []) then
      "Network connection failed. Please check your internet connection.".toList
    else e.message.getD []
  else "An unknown error occurred while sending the message.".toList

/-! ## The send operation (`sendMessageWithStreaming`) -/

/-- Model of `SendMessageResponse` restricted to the decoder-relevant
fields (`messageId` is a wall-clock/random identifier and `duration` a
wall-clock difference; both are free of decoder logic). -/
structure SendMessageResponse where
  success : Bool
  sessionId : Option Str
  error : Option ErrorContext
  deriving DecidableEq

/-- The response body shapes `sendMessageWithStreaming` can receive, after
the duck-type probe, plus the two throwing situations (no body at all, or
a body of neither shape). -/
inductive ResponseBody where
  | readable (bchunks : List (List Nat)) (ending : StreamEnd)
  | buffered (text : Str)
  | missing
  | unsupported

/-- Outcome of the transport call `client.send(command)` (or of the client
construction itself): either it throws a raw error, or it responds with a
body and an optional `runtimeSessionId`. -/
inductive TransportOutcome where
  | throws (e : RawError)
  | responds (body : ResponseBody) (runtimeSessionId : Option Str)

/-- What one call to `sendMessageWithStreaming` produced: the returned
result, the ordered callback trace, whether a transport client was
constructed, and how many transport invocations happened. -/
structure SendOutput where
  result : SendMessageResponse
  trace : List TraceEvent
  clientConstructed : Bool
  networkCalls : Nat

/-- The `ErrorContext` built in the validation short-circuit. -/
def validationCtx : ErrorContext :=
  { type := .validation, code := "INVALID_MESSAGE".toList,
    message := "Message cannot be empty".toList }

/-- The `ErrorContext` built in the outer catch block. -/
def catchCtx (e : RawError) : ErrorContext :=
  { type := classifyError e, code := getErrorCode e, message := getErrorMessage e }

/-- The raw error thrown for a missing response body. -/
def noResponseErr : RawError :=
  { isError := true, isTypeError := false, isSyntaxError := false,
    name := some "Error".toList, code := none,
    message := some "No response stream received from AWS Bedrock".toList }

/-- The raw error thrown for a body of neither supported shape. -/
def unsupportedErr : RawError :=
  { isError := true, isTypeError := false, isSyntaxError := false,
    name := some "Error".toList, code := none,
    message := some "Unsupported response format".toList }

/-- Model of `sendMessageWithStreaming`: validate the message (empty or
whitespace-only fails immediately with a `validation` context, before any
client is constructed), then perform the transport call and dispatch on
the body shape; every error thrown inside the `try` lands in the catch
block, which classifies it, invokes `onError` and returns a failed
result.  A read failure inside `processReadableStream` is caught there
(invoking `onError` with a `streaming` context) and does not reach the
outer catch, so the call still returns a success result.  `sessionId` is
the caller-supplied identifier and `profileSid` the profile default. -/
def sendMessageWithStreaming (message : Str) (sessionId : Option Str) (profileSid : Str)
    (fb : Str → Option Str) (outcome : TransportOutcome) : SendOutput :=
  if message = [] ∨ jsTrim message = [] then
    { result := { success := false, sessionId := none, error := some validationCtx },
      trace := [TraceEvent.errorCb validationCtx],
      clientConstructed := false, networkCalls := 0 }
  else
    match outcome with
    | .throws e =>
      { result := { success := false, sessionId := none, error := some (catchCtx e) },
        trace := [TraceEvent.errorCb (catchCtx e)],
        clientConstructed := true, networkCalls := 1 }
    | .responds body runtimeSid =>
      match body with
      | .missing =>
        { result := { success := false, sessionId := none, error := some (catchCtx noResponseErr) },
          trace := [TraceEvent.errorCb (catchCtx noResponseErr)],
          clientConstructed := true, networkCalls := 1 }
      | .unsupported =>
        { result := { success := false, sessionId := none, error := some (catchCtx unsupportedErr) },
          trace := [TraceEvent.errorCb (catchCtx unsupportedErr)],
          clientConstructed := true, networkCalls := 1 }
      | .readable bchunks ending =>
        { result := { success := true, sessionId := some ((runtimeSid.orElse (fun _ => sessionId)).getD profileSid), error := none },
          trace := processReadableStream bchunks ending,
          clientConstructed := true, networkCalls := 1 }
      | .buffered text =>
        { result := { success := true, sessionId := some ((runtimeSid.orElse (fun _ => sessionId)).getD profileSid), error := none },
          trace := parseSSEResponse fb text,
          clientConstructed := true, networkCalls := 1 }

/-! ## Escape segments

A payload text built from plain characters (no backslash) and the four
escape sequences.  These describe exactly the texts the escaping claim
quantifies over: each escape occurrence is delimited, so the global
replaces act on the escapes and nothing else. -/

inductive EscSeg where
  | lit (c : Char)
  | escN | escT | escQ | escD
  deriving DecidableEq

/-- The escaped source form of a segment (as found in the payload). -/
def renderSeg : EscSeg → Str
  | .lit c => [c]
  | .escN => [bslash, 'n']
  | .escT => [bslash, 't']
  | .escQ => [bslash, squote]
  | .escD => [bslash, dquote]

/-- The character a segment denotes after unescaping. -/
def litSeg : EscSeg → Char
  | .lit c => c
  | .escN => nlChar
  | .escT => tabChar
  | .escQ => squote
  | .escD => dquote

/-- A plain segment must not itself be a backslash (otherwise it would fuse
with a following escape). -/
def goodSeg : EscSeg → Bool
  | .lit c => ¬ c = bslash
  | _ => true

theorem modifyHead_congr (f g : Str → Str) (l : List Str) (h : ∀ q, f q = g q) :
    l.modifyHead f = l.modifyHead g := by
  cases l with
  | nil => rfl
  | cons a t => simp [List.modifyHead, h a]

theorem modifyHead_comp (f g : Str → Str) (l : List Str) :
    (l.modifyHead g).modifyHead f = l.modifyHead (fun q => f (g q)) := by
  cases l with
  | nil => rfl
  | cons a t => simp [List.modifyHead]

/-- The split of a segment string at a two-character escape pattern
`[bslash, x]`: pieces are cut exactly at the target segments. -/
def buildPieces (isTarget : EscSeg → Bool) (f : EscSeg → Str) : List EscSeg → List Str
  | [] => [[]]
  | s :: rest =>
    if isTarget s then [] :: buildPieces isTarget f rest
    else (buildPieces isTarget f rest).modifyHead (f s ++ ·)

theorem buildPieces_ne_nil (isTarget : EscSeg → Bool) (f : EscSeg → Str) :
    ∀ segs, buildPieces isTarget f segs ≠ []
  | [] => by simp [buildPieces]
  | s :: rest => by
    unfold buildPieces
    by_cases h : isTarget s = true
    · simp [h]
    · simp only [h, if_false]
      have := buildPieces_ne_nil isTarget f rest
      cases hg : buildPieces isTarget f rest with
      | nil => exact absurd hg this
      | cons a l => simp [List.modifyHead]

/-- Splitting a segment string on `[bslash, x]` cuts exactly at the target
segments, provided every segment renders as the pattern itself, a single
non-backslash character, or a two-character escape `[bslash, z]` with
`z ≠ x`. -/
theorem splitOn_segs (x : Char) (hx : ¬ x = bslash) (isTarget : EscSeg → Bool)
    (f : EscSeg → Str) :
    ∀ segs : List EscSeg,
      (∀ s ∈ segs, (isTarget s = true ∧ f s = [bslash, x]) ∨
        (isTarget s = false ∧
          ((∃ c, f s = [c] ∧ ¬ c = bslash) ∨
            (∃ z, f s = [bslash, z] ∧ ¬ z = x ∧ ¬ z = bslash)))) →
      splitOn [bslash, x] (segs.flatMap f) = buildPieces isTarget f segs
  | [], _ => by simp [splitOn, goSplit, buildPieces]
  | s :: rest, hseg => by
    have hin := hseg s (by simp)
    have hrest : ∀ u ∈ rest, _ := fun u hu => hseg u (by simp [hu])
    have ih : goSplit [bslash, x] (rest.flatMap f) 0 = buildPieces isTarget f rest :=
      splitOn_segs x hx isTarget f rest hrest
    rcases hin with ⟨ht, hf⟩ | ⟨ht, ⟨c, hf, hc⟩ | ⟨z, hf, hzx, hzb⟩⟩
    · -- the target escape: a match at the segment boundary
      rw [List.flatMap_cons, hf]
      show goSplit [bslash, x] (bslash :: x :: rest.flatMap f) 0 = _
      unfold goSplit
      rw [if_pos ⟨by simp, by simp [List.isPrefixOf]⟩]
      show [] :: goSplit [bslash, x] (x :: rest.flatMap f) 1 = _
      unfold goSplit
      rw [buildPieces, if_pos ht]
      exact congrArg _ ih
    · -- a plain character: no match can start here
      rw [List.flatMap_cons, hf]
      show goSplit [bslash, x] (c :: rest.flatMap f) 0 = _
      unfold goSplit
      rw [if_neg (by
        intro hcon
        have := hcon.2
        simp [List.isPrefixOf] at this
        exact hc this.1.symm)]
      rw [buildPieces, if_neg (by simp [ht]), ih]
      exact modifyHead_congr _ _ _ (fun q => by rw [hf]; rfl)
    · -- a different escape: neither of its two characters starts a match
      rw [List.flatMap_cons, hf]
      show goSplit [bslash, x] (bslash :: z :: rest.flatMap f) 0 = _
      unfold goSplit
      rw [if_neg (by
        intro hcon
        have := hcon.2
        simp [List.isPrefixOf] at this
        exact hzx this.symm)]
      show (goSplit [bslash, x] (z :: rest.flatMap f) 0).modifyHead (bslash :: ·) = _
      unfold goSplit
      rw [if_neg (by
        intro hcon
        have := hcon.2
        simp [List.isPrefixOf] at this
        exact hzb this.1.symm)]
      rw [buildPieces, if_neg (by simp [ht]), ih, modifyHead_comp]
      exact modifyHead_congr _ _ _ (fun q => by rw [hf]; rfl)

/-- Joining the pieces with the replacement character re-renders every
target segment as that character. -/
theorem joinSep_buildPieces (r : Char) (isTarget : EscSeg → Bool) (f g : EscSeg → Str)
    (hg : ∀ s, (isTarget s = true → g s = [r]) ∧ (isTarget s = false → g s = f s)) :
    ∀ segs : List EscSeg,
      joinSep [r] (buildPieces isTarget f segs) = segs.flatMap g
  | [] => by simp [buildPieces, joinSep]
  | s :: rest => by
    have ih := joinSep_buildPieces r isTarget f g hg rest
    by_cases ht : isTarget s = true
    · rw [buildPieces, if_pos ht, List.flatMap_cons, (hg s).1 ht]
      have hne := buildPieces_ne_nil isTarget f rest
      cases hb : buildPieces isTarget f rest with
      | nil => exact absurd hb hne
      | cons p ps =>
        rw [hb] at ih
        show [] ++ [r] ++ joinSep [r] (p :: ps) = _
        rw [ih]
        rfl
    · rw [buildPieces, if_neg ht, List.flatMap_cons,
        (hg s).2 (by simpa using ht)]
      have hne := buildPieces_ne_nil isTarget f rest
      cases hb : buildPieces isTarget f rest with
      | nil => exact absurd hb hne
      | cons p ps =>
        rw [hb] at ih
        cases ps with
        | nil =>
          show joinSep [r] [f s ++ p] = _
          show f s ++ p = _
          rw [show joinSep [r] [p] = p from rfl] at ih
          rw [ih]
        | cons q ps2 =>
          show (f s ++ p) ++ [r] ++ joinSep [r] (q :: ps2) = _
          rw [← ih]
          show _ = f s ++ (p ++ [r] ++ joinSep [r] (q :: ps2))
          simp

/-- One global replace pass over a segment string literalises exactly the
target escape. -/
theorem replaceAll_segs (x r : Char) (hx : ¬ x = bslash) (isTarget : EscSeg → Bool)
    (f g : EscSeg → Str)
    (hglob : ∀ s, (isTarget s = true → f s = [bslash, x] ∧ g s = [r]) ∧
      (isTarget s = false → g s = f s))
    (segs : List EscSeg)
    (hmem : ∀ s ∈ segs, isTarget s = true ∨
      (∃ c, f s = [c] ∧ ¬ c = bslash) ∨
      (∃ z, f s = [bslash, z] ∧ ¬ z = x ∧ ¬ z = bslash)) :
    replaceAll [bslash, x] [r] (segs.flatMap f) = segs.flatMap g := by
  rw [replaceAll, splitOn_segs x hx isTarget f segs (by
    intro s hs
    by_cases ht : isTarget s = true
    · exact Or.inl ⟨ht, ((hglob s).1 ht).1⟩
    · have ht' : isTarget s = false := by simpa using ht
      rcases hmem s hs with h | h | h
      · exact absurd h ht
      · exact Or.inr ⟨ht', Or.inl h⟩
      · exact Or.inr ⟨ht', Or.inr h⟩)]
  exact joinSep_buildPieces r isTarget f g (by
    intro s
    constructor
    · intro ht
      exact ((hglob s).1 ht).2
    · intro ht
      exact (hglob s).2 ht) segs

/-- Render after the `[bslash, n]` pass. -/
def render1 : EscSeg → Str
  | .escN => [nlChar]
  | s => renderSeg s

/-- Render after the `[bslash, t]` pass. -/
def render2 : EscSeg → Str
  | .escN => [nlChar]
  | .escT => [tabChar]
  | s => renderSeg s

/-- Render after the `[bslash, quote]` pass. -/
def render3 : EscSeg → Str
  | .escN => [nlChar]
  | .escT => [tabChar]
  | .escQ => [squote]
  | s => renderSeg s

theorem flatMap_litSeg (segs : List EscSeg) :
    segs.flatMap (fun s => [litSeg s]) = segs.map litSeg := by
  induction segs with
  | nil => rfl
  | cons s rest ih => simp [ih]

/-- No occurrence of the double-backslash pattern exists in a segment
string, so that pass of `processSSEBuffer` is the identity there. -/
theorem splitOn_bb_segs (w : Char) (f : EscSeg → Str) :
    ∀ segs : List EscSeg,
      (∀ s ∈ segs,
        (∃ c, f s = [c] ∧ ¬ c = bslash) ∨ (∃ z, f s = [bslash, z] ∧ ¬ z = bslash)) →
      splitOn [bslash, bslash, w] (segs.flatMap f) = [segs.flatMap f]
  | [], _ => by simp [splitOn, goSplit]
  | s :: rest, hseg => by
    have ih : goSplit [bslash, bslash, w] (rest.flatMap f) 0 = [rest.flatMap f] :=
      splitOn_bb_segs w f rest (fun u hu => hseg u (by simp [hu]))
    rcases hseg s (by simp) with ⟨c, hf, hc⟩ | ⟨z, hf, hz⟩
    · rw [List.flatMap_cons, hf]
      show goSplit [bslash, bslash, w] (c :: rest.flatMap f) 0 = _
      unfold goSplit
      rw [if_neg (by
        intro hcon
        have := hcon.2
        simp [List.isPrefixOf] at this
        exact hc this.1.symm)]
      rw [ih]
      rfl
    · rw [List.flatMap_cons, hf]
      show goSplit [bslash, bslash, w] (bslash :: z :: rest.flatMap f) 0 = _
      unfold goSplit
      rw [if_neg (by
        intro hcon
        have := hcon.2
        simp [List.isPrefixOf] at this
        exact hz this.1.symm)]
      show (goSplit [bslash, bslash, w] (z :: rest.flatMap f) 0).modifyHead (bslash :: ·) = _
      unfold goSplit
      rw [if_neg (by
        intro hcon
        have := hcon.2
        simp [List.isPrefixOf] at this
        exact hz this.1.symm)]
      rw [ih]
      rfl

theorem renderSeg_pieces (segs : List EscSeg) (hgood : ∀ s ∈ segs, goodSeg s = true) :
    ∀ s ∈ segs,
      (∃ c, renderSeg s = [c] ∧ ¬ c = bslash) ∨
      (∃ z, renderSeg s = [bslash, z] ∧ ¬ z = bslash) := by
  intro s hs
  cases s with
  | lit c =>
    refine Or.inl ⟨c, rfl, ?_⟩
    have := hgood _ hs
    simpa [goodSeg] using this
  | escN => exact Or.inr ⟨'n', rfl, by decide⟩
  | escT => exact Or.inr ⟨'t', rfl, by decide⟩
  | escQ => exact Or.inr ⟨squote, rfl, by decide⟩
  | escD => exact Or.inr ⟨dquote, rfl, by decide⟩

/-- The buffered-path unescape chain literalises exactly the escape
segments of a well-formed payload text. -/
theorem unescapeBuffered_segs (segs : List EscSeg)
    (hgood : ∀ s ∈ segs, goodSeg s = true) :
    unescapeBuffered (segs.flatMap renderSeg) = segs.map litSeg := by
  have p1 : replaceAll [bslash, 'n'] [nlChar] (segs.flatMap renderSeg) =
      segs.flatMap render1 := by
    refine replaceAll_segs 'n' nlChar (by decide)
      (fun s => decide (s = EscSeg.escN)) renderSeg render1 ?_ segs ?_
    · intro s
      constructor
      · intro ht
        have hs : s = EscSeg.escN := of_decide_eq_true ht
        subst hs
        exact ⟨rfl, rfl⟩
      · intro ht
        have hs : ¬ s = EscSeg.escN := of_decide_eq_false ht
        cases s <;> first | rfl | exact absurd rfl hs
    · intro s hs
      cases s with
      | lit c =>
        refine Or.inr (Or.inl ⟨c, rfl, ?_⟩)
        simpa [goodSeg] using hgood _ hs
      | escN => exact Or.inl (by decide)
      | escT => exact Or.inr (Or.inr ⟨'t', rfl, by decide, by decide⟩)
      | escQ => exact Or.inr (Or.inr ⟨squote, rfl, by decide, by decide⟩)
      | escD => exact Or.inr (Or.inr ⟨dquote, rfl, by decide, by decide⟩)
  have p2 : replaceAll [bslash, 't'] [tabChar] (segs.flatMap render1) =
      segs.flatMap render2 := by
    refine replaceAll_segs 't' tabChar (by decide)
      (fun s => decide (s = EscSeg.escT)) render1 render2 ?_ segs ?_
    · intro s
      constructor
      · intro ht
        have hs : s = EscSeg.escT := of_decide_eq_true ht
        subst hs
        exact ⟨rfl, rfl⟩
      · intro ht
        have hs : ¬ s = EscSeg.escT := of_decide_eq_false ht
        cases s <;> first | rfl | exact absurd rfl hs
    · intro s hs
      cases s with
      | lit c =>
        refine Or.inr (Or.inl ⟨c, rfl, ?_⟩)
        simpa [goodSeg] using hgood _ hs
      | escN => exact Or.inr (Or.inl ⟨nlChar, rfl, by decide⟩)
      | escT => exact Or.inl (by decide)
      | escQ => exact Or.inr (Or.inr ⟨squote, rfl, by decide, by decide⟩)
      | escD => exact Or.inr (Or.inr ⟨dquote, rfl, by decide, by decide⟩)
  have p3 : replaceAll [bslash, squote] [squote] (segs.flatMap render2) =
      segs.flatMap render3 := by
    refine replaceAll_segs squote squote (by decide)
      (fun s => decide (s = EscSeg.escQ)) render2 render3 ?_ segs ?_
    · intro s
      constructor
      · intro ht
        have hs : s = EscSeg.escQ := of_decide_eq_true ht
        subst hs
        exact ⟨rfl, rfl⟩
      · intro ht
        have hs : ¬ s = EscSeg.escQ := of_decide_eq_false ht
        cases s <;> first | rfl | exact absurd rfl hs
    · intro s hs
      cases s with
      | lit c =>
        refine Or.inr (Or.inl ⟨c, rfl, ?_⟩)
        simpa [goodSeg] using hgood _ hs
      | escN => exact Or.inr (Or.inl ⟨nlChar, rfl, by decide⟩)
      | escT => exact Or.inr (Or.inl ⟨tabChar, rfl, by decide⟩)
      | escQ => exact Or.inl (by decide)
      | escD => exact Or.inr (Or.inr ⟨dquote, rfl, by decide, by decide⟩)
  have p4 : replaceAll [bslash, dquote] [dquote] (segs.flatMap render3) =
      segs.flatMap (fun s => [litSeg s]) := by
    refine replaceAll_segs dquote dquote (by decide)
      (fun s => decide (s = EscSeg.escD)) render3 (fun s => [litSeg s]) ?_ segs ?_
    · intro s
      constructor
      · intro ht
        have hs : s = EscSeg.escD := of_decide_eq_true ht
        subst hs
        exact ⟨rfl, rfl⟩
      · intro ht
        have hs : ¬ s = EscSeg.escD := of_decide_eq_false ht
        cases s <;> first | rfl | exact absurd rfl hs
    · intro s hs
      cases s with
      | lit c =>
        refine Or.inr (Or.inl ⟨c, rfl, ?_⟩)
        simpa [goodSeg] using hgood _ hs
      | escN => exact Or.inr (Or.inl ⟨nlChar, rfl, by decide⟩)
      | escT => exact Or.inr (Or.inl ⟨tabChar, rfl, by decide⟩)
      | escQ => exact Or.inr (Or.inl ⟨squote, rfl, by decide⟩)
      | escD => exact Or.inl (by decide)
  rw [unescapeBuffered, p1, p2, p3, p4, flatMap_litSeg]

/-- The incremental-path unescape chain agrees on well-formed payload
texts: its extra double-backslash pass finds nothing to replace. -/
theorem unescapeStream_segs (segs : List EscSeg)
    (hgood : ∀ s ∈ segs, goodSeg s = true) :
    unescapeStream (segs.flatMap renderSeg) = segs.map litSeg := by
  have hid : replaceAll [bslash, bslash, 'n'] [nlChar] (segs.flatMap renderSeg) =
      segs.flatMap renderSeg := by
    rw [replaceAll, splitOn_bb_segs 'n' renderSeg segs (renderSeg_pieces segs hgood)]
    rfl
  rw [unescapeStream, hid, unescapeBuffered_segs segs hgood]

/-! ## Quote freedom of the tolerant capture -/

theorem contAt_no_squote (s cap : Str) (h : contAt s = some cap) : squote ∉ cap := by
  unfold contAt at h
  split at h
  · exact absurd h (by simp)
  · split at h
    · exact absurd h (by simp)
    · split at h
      · split at h
        · exact absurd h (by simp)
        · split at h
          · intro hmem
            have hcap := Option.some.inj h
            rw [← hcap] at hmem
            have := List.mem_takeWhile_imp hmem
            simp at this
          · exact absurd h (by simp)
      · exact absurd h (by simp)

theorem bodyMatch_no_squote (s cap : Str) (h : bodyMatch s = some cap) : squote ∉ cap := by
  obtain ⟨k, _, hk⟩ := List.exists_of_findSome?_eq_some h
  exact contAt_no_squote _ _ hk

theorem matchCBDAt_no_squote (s cap : Str) (h : matchCBDAt s = some cap) : squote ∉ cap := by
  unfold matchCBDAt at h
  split at h
  · exact absurd h (by simp)
  · split at h
    · exact absurd h (by simp)
    · split at h
      · exact bodyMatch_no_squote _ _ h
      · exact absurd h (by simp)

/-- The capture of the tolerant matcher excludes the single quote: the
capture group is a run of non-quote characters. -/
theorem matchCBD_no_squote : ∀ (s cap : Str), matchCBD s = some cap → squote ∉ cap
  | [], cap, h => by simp [matchCBD] at h
  | c :: rest, cap, h => by
    unfold matchCBD at h
    split at h
    · exact matchCBDAt_no_squote _ _ (by
        rename_i heq
        rw [heq, h])
    · exact matchCBD_no_squote rest cap h

theorem goSplit_chars (sep : Str) :
    ∀ (s : Str) (k : Nat) (p : Str), p ∈ goSplit sep s k → ∀ c ∈ p, c ∈ s
  | [], _, p, hp, c, hc => by
    simp [goSplit] at hp
    subst hp
    simp at hc
  | c0 :: rest, k + 1, p, hp, c, hc => by
    have := goSplit_chars sep rest k p (by simpa [goSplit] using hp) c hc
    simp [this]
  | c0 :: rest, 0, p, hp, c, hc => by
    rw [show goSplit sep (c0 :: rest) 0 =
      (if sep ≠ [] ∧ sep.isPrefixOf (c0 :: rest) then
        [] :: goSplit sep rest (sep.length - 1)
      else (goSplit sep rest 0).modifyHead (c0 :: ·)) from by rw [goSplit]] at hp
    by_cases hcond : sep ≠ [] ∧ sep.isPrefixOf (c0 :: rest)
    · rw [if_pos hcond] at hp
      rcases List.mem_cons.mp hp with hp0 | hp1
      · subst hp0
        simp at hc
      · have := goSplit_chars sep rest (sep.length - 1) p hp1 c hc
        simp [this]
    · rw [if_neg hcond] at hp
      cases hg : goSplit sep rest 0 with
      | nil => rw [hg] at hp; simp [List.modifyHead] at hp
      | cons q t =>
        rw [hg] at hp
        simp only [List.modifyHead] at hp
        rcases List.mem_cons.mp hp with hp0 | hp1
        · subst hp0
          rcases List.mem_cons.mp hc with hc0 | hc1
          · simp [hc0]
          · have := goSplit_chars sep rest 0 q (by rw [hg]; simp) c hc1
            simp [this]
        · have := goSplit_chars sep rest 0 p (by rw [hg]; simp [hp1]) c hc
          simp [this]

theorem joinSep_chars (rep : Str) :
    ∀ (pieces : List Str) (c : Char), c ∈ joinSep rep pieces →
      c ∈ rep ∨ ∃ p ∈ pieces, c ∈ p
  | [], c, hc => by simp [joinSep] at hc
  | [p], c, hc => by
    right
    exact ⟨p, by simp, by simpa [joinSep] using hc⟩
  | p :: q :: rest, c, hc => by
    simp only [joinSep, List.append_assoc, List.mem_append] at hc
    rcases hc with hc | hc | hc
    · exact Or.inr ⟨p, by simp, hc⟩
    · exact Or.inl hc
    · rcases joinSep_chars rep (q :: rest) c hc with h | ⟨u, hu, hcu⟩
      · exact Or.inl h
      · exact Or.inr ⟨u, by simp [List.mem_cons] at hu ⊢; tauto, hcu⟩

/-- Characters of a global replace come from the input or the replacement. -/
theorem replaceAll_chars (pat rep s : Str) (c : Char) (hc : c ∈ replaceAll pat rep s) :
    c ∈ rep ∨ c ∈ s := by
  rcases joinSep_chars rep (splitOn pat s) c hc with h | ⟨p, hp, hcp⟩
  · exact Or.inl h
  · exact Or.inr (goSplit_chars pat s 0 p hp c hcp)

/-- A global replace whose pattern uses a character absent from the input
is the identity. -/
theorem replaceAll_skip (pat rep s : Str) (x : Char) (hxp : x ∈ pat) (hxs : x ∉ s) :
    replaceAll pat rep s = s := by
  have hnom : ∀ i, ¬ pat.isPrefixOf (s.drop i) = true := by
    intro i hpf
    have hsub := (List.isPrefixOf_iff_prefix.mp hpf).subset
    exact hxs (List.mem_of_mem_drop (hsub hxp))
  rw [replaceAll, show splitOn pat s = goSplit pat s 0 from rfl,
    goSplit_no_match pat s hnom]
  rfl

theorem unescapeBuffered_no_squote (s : Str) (hs : squote ∉ s) :
    squote ∉ unescapeBuffered s := by
  have h1 : squote ∉ replaceAll [bslash, 'n'] [nlChar] s := by
    intro hmem
    rcases replaceAll_chars _ _ _ _ hmem with h | h
    · simp at h
      exact absurd h (by decide)
    · exact hs h
  have h2 : squote ∉ replaceAll [bslash, 't'] [tabChar] (replaceAll [bslash, 'n'] [nlChar] s) := by
    intro hmem
    rcases replaceAll_chars _ _ _ _ hmem with h | h
    · simp at h
      exact absurd h (by decide)
    · exact h1 h
  have h3 : replaceAll [bslash, squote] [squote]
      (replaceAll [bslash, 't'] [tabChar] (replaceAll [bslash, 'n'] [nlChar] s)) =
      replaceAll [bslash, 't'] [tabChar] (replaceAll [bslash, 'n'] [nlChar] s) :=
    replaceAll_skip _ _ _ squote (by simp) h2
  intro hmem
  rw [unescapeBuffered, h3] at hmem
  rcases replaceAll_chars _ _ _ _ hmem with h | h
  · simp at h
    exact absurd h (by decide)
  · exact h2 h

theorem unescapeStream_no_squote (s : Str) (hs : squote ∉ s) :
    squote ∉ unescapeStream s := by
  have h0 : squote ∉ replaceAll [bslash, bslash, 'n'] [nlChar] s := by
    intro hmem
    rcases replaceAll_chars _ _ _ _ hmem with h | h
    · simp at h
      exact absurd h (by decide)
    · exact hs h
  exact unescapeBuffered_no_squote _ h0

/-! ## Sample data used by witnesses and counterexamples -/

/-- A fallback that finds no generic text delta (the payloads below are
single-quoted and not valid strict structured data). -/
def fbNone : Str → Option Str := fun _ => none

/-- A payload carrying both a text delta and a tool-use stop reason. -/
def sampleBothPayload : Str :=
  [lbrace] ++ cbdKey ++ [' ', lbrace] ++ textKey ++ [' ', squote] ++ "hi".toList ++
    [squote, rbrace, ',', ' '] ++ stopKey ++ [' '] ++ toolUseKey ++ [rbrace]

/-- The frame around `sampleBothPayload`. -/
def sampleBothFrame : Str := dataPrefix ++ sampleBothPayload

/-- A payload carrying only a tool-use stop reason. -/
def sampleStopPayload : Str :=
  [lbrace] ++ stopKey ++ [' '] ++ toolUseKey ++ [rbrace]

/-- A payload carrying only a text delta. -/
def sampleDeltaPayload : Str :=
  [lbrace] ++ cbdKey ++ [' ', lbrace] ++ textKey ++ [' ', squote] ++ "Hi".toList ++
    [squote, rbrace, rbrace]

/-- A two-frame stream text: a delta frame with a multi-byte character,
then a tool-use frame. -/
def sampleStreamText : Str :=
  dataPrefix ++ [lbrace] ++ cbdKey ++ [' ', lbrace] ++ textKey ++ [' ', squote] ++
    "中a".toList ++ [squote, rbrace, rbrace] ++ [nlChar, nlChar] ++
    dataPrefix ++ sampleStopPayload

/-- A chunking of `utf8Encode sampleStreamText` cutting inside the
three-byte character (byte 39 of 38..40) and inside the frame delimiter
(between the newlines at bytes 45 and 46). -/
def sampleStreamChunks : List (List Nat) :=
  [(utf8Encode sampleStreamText).take 39,
    ((utf8Encode sampleStreamText).drop 39).take 7,
    (utf8Encode sampleStreamText).drop 46]

/-- A raw error whose `name` indicates an authentication failure but which
carries no `code` property. -/
def nameAuthErr : RawError :=
  { isError := true, isTypeError := false, isSyntaxError := false,
    name := some "AuthFailure".toList, code := none, message := some "x".toList }

/-- An AWS-shaped raw error whose `code` indicates an authentication
failure but whose `message` matches no fixed-message pattern. -/
def codeAuthErr : RawError :=
  { isError := true, isTypeError := false, isSyntaxError := false,
    name := none, code := some "AuthFailure".toList, message := some "boom".toList }

/-- An AWS-shaped authentication error matching both the classifier and
the fixed-message scan. -/
def fullAuthErr : RawError :=
  { isError := true, isTypeError := false, isSyntaxError := false,
    name := some "AccessDeniedException".toList, code := some "AuthFailure".toList,
    message := some "AccessDenied: not allowed".toList }

/-- A read failure with an `Error` instance carrying this message. -/
def sampleReadError : StreamEnd := StreamEnd.readError true "boom".toList

/-! ## Claims -/

/-- C1 (counterexample).  A send whose transport returns a readable stream
that fails during decoding: `processReadableStream` catches the failure,
passes the streaming `ErrorContext` to `onError` — and
`sendMessageWithStreaming` then returns `success := true` with no `error`
field, contradicting the claim that such a send returns `success : false`
carrying that context. -/
theorem sendStreamFailure_counterexample :
    (sendMessageWithStreaming "hi".toList none [] fbNone
      (.responds (.readable [] sampleReadError) none)).result.success = true ∧
    (sendMessageWithStreaming "hi".toList none [] fbNone
      (.responds (.readable [] sampleReadError) none)).result.error = none ∧
    (sendMessageWithStreaming "hi".toList none [] fbNone
      (.responds (.readable [] sampleReadError) none)).trace =
      [TraceEvent.errorCb (streamErrCtx sampleReadError)] := by
  refine ⟨?_, ?_, ?_⟩ <;> rfl

/-- C1 (amended).  Every failure thrown inside the `try` block — a
transport throw, a missing response body, an unsupported body shape — and
the validation short-circuit invoke `onError` with the `ErrorContext` and
return `success := false` carrying it; nothing is thrown past the
boundary (the model is a total function).  A stream-level read failure
during decoding is the exception: `onError` receives the streaming
`ErrorContext` as the last callback after any already-delivered chunks,
but the returned result has `success := true` and no `error` field. -/
theorem sendErrorPropagation_amended :
    (∀ (msg : Str) (sid : Option Str) (psid : Str) (fb : Str → Option Str) (e : RawError),
      ¬ jsTrim msg = [] →
      (sendMessageWithStreaming msg sid psid fb (.throws e)).result.success = false ∧
      (sendMessageWithStreaming msg sid psid fb (.throws e)).result.error =
        some (catchCtx e) ∧
      (sendMessageWithStreaming msg sid psid fb (.throws e)).trace =
        [TraceEvent.errorCb (catchCtx e)]) ∧
    (∀ (msg : Str) (sid rsid : Option Str) (psid : Str) (fb : Str → Option Str),
      ¬ jsTrim msg = [] →
      (sendMessageWithStreaming msg sid psid fb (.responds .missing rsid)).result.success =
        false ∧
      (sendMessageWithStreaming msg sid psid fb (.responds .missing rsid)).result.error =
        some (catchCtx noResponseErr) ∧
      (sendMessageWithStreaming msg sid psid fb
        (.responds .unsupported rsid)).result.error = some (catchCtx unsupportedErr)) ∧
    (∀ (msg : Str) (sid rsid : Option Str) (psid : Str) (fb : Str → Option Str)
        (bchunks : List (List Nat)) (isErr : Bool) (emsg : Str),
      ¬ jsTrim msg = [] →
      (sendMessageWithStreaming msg sid psid fb
        (.responds (.readable bchunks (.readError isErr emsg)) rsid)).result.success = true ∧
      (sendMessageWithStreaming msg sid psid fb
        (.responds (.readable bchunks (.readError isErr emsg)) rsid)).result.error = none ∧
      (streamErrCtx (.readError isErr emsg)).type = ErrType.streaming ∧
      ∃ outs : List Str,
        (sendMessageWithStreaming msg sid psid fb
          (.responds (.readable bchunks (.readError isErr emsg)) rsid)).trace =
          outs.map TraceEvent.chunk ++
            [TraceEvent.errorCb (streamErrCtx (.readError isErr emsg))]) := by
  refine ⟨?_, ?_, ?_⟩
  · intro msg sid psid fb e hmsg
    have hcond : ¬ (msg = [] ∨ jsTrim msg = []) := by
      intro h
      rcases h with h | h
      · exact hmsg (by simp [h, jsTrim])
      · exact hmsg h
    refine ⟨?_, ?_, ?_⟩ <;> simp [sendMessageWithStreaming, hcond]
  · intro msg sid rsid psid fb hmsg
    have hcond : ¬ (msg = [] ∨ jsTrim msg = []) := by
      intro h
      rcases h with h | h
      · exact hmsg (by simp [h, jsTrim])
      · exact hmsg h
    refine ⟨?_, ?_, ?_⟩ <;> simp [sendMessageWithStreaming, hcond]
  · intro msg sid rsid psid fb bchunks isErr emsg hmsg
    have hcond : ¬ (msg = [] ∨ jsTrim msg = []) := by
      intro h
      rcases h with h | h
      · exact hmsg (by simp [h, jsTrim])
      · exact hmsg h
    have hshape := streamLoopStr_shape (.readError isErr emsg) (decodeChunks bchunks []) []
    obtain ⟨outs, houts⟩ := hshape
    refine ⟨by simp [sendMessageWithStreaming, hcond], by simp [sendMessageWithStreaming, hcond],
      rfl, ⟨outs, ?_⟩⟩
    have htr : (sendMessageWithStreaming msg sid psid fb
        (.responds (.readable bchunks (.readError isErr emsg)) rsid)).trace =
        processReadableStream bchunks (.readError isErr emsg) := by
      simp [sendMessageWithStreaming, hcond]
    rw [htr, processReadableStream, streamLoop_eq_str, houts]
    rfl

/-- C1 (witness). -/
theorem sendErrorPropagation_witness :
    (¬ jsTrim "hi".toList = []) ∧
    (sendMessageWithStreaming "hi".toList none [] fbNone
      (.throws nameAuthErr)).result.success = false := by
  exact ⟨by decide,
    (sendErrorPropagation_amended.1 "hi".toList none [] fbNone nameAuthErr (by decide)).1⟩

/-- C2.  On both decoding paths the trace is a run of chunk events
followed by exactly one terminal event, the terminal being the last
callback: the buffered path processes the trimmed-non-empty frames of the
double-newline split in order and then completes; the incremental path
(at end-of-data) processes exactly the frames of the decoded text in
arrival order and then completes, and on any ending emits its chunk run
followed by the single terminal determined by the ending. -/
theorem decode_ordering_terminal :
    (∀ (fb : Str → Option Str) (t : Str),
      parseSSEResponse fb t =
        (((splitOn [nlChar, nlChar] t).filter (fun e => jsTrim e ≠ [])).flatMap
          (processFrameBuffered fb)).map TraceEvent.chunk ++ [TraceEvent.complete]) ∧
    (∀ bs : List (List Nat),
      processReadableStream bs StreamEnd.eof =
        ((framesOf ((decodeGo bs.flatten).1)).flatMap processSSEBuffer).map
          TraceEvent.chunk ++ [TraceEvent.complete]) ∧
    (∀ (bs : List (List Nat)) (ending : StreamEnd), ∃ outs : List Str,
      processReadableStream bs ending = outs.map TraceEvent.chunk ++ [endEvent ending]) := by
  refine ⟨fun _ _ => rfl, ?_, ?_⟩
  · intro bs
    have hflat : (decodeChunks bs []).flatten = (decodeGo bs.flatten).1 := by
      rw [decodeChunks_flatten bs [] rfl, List.nil_append]
    rw [processReadableStream, streamLoop_eq_str,
      streamLoopStr_collapse StreamEnd.eof (decodeChunks bs []), hflat,
      streamLoopStr_single]
  · intro bs ending
    rw [processReadableStream, streamLoop_eq_str]
    exact streamLoopStr_shape ending (decodeChunks bs []) []

/-- C3.  Splitting a valid frame-sequence text's UTF-8 encoding into byte
chunks at arbitrary offsets (including mid-delimiter and mid-character)
yields the same trace — in particular the same final concatenated chunk
text — as delivering the whole encoding as one chunk. -/
theorem chunk_boundary_robustness (t : Str) (bs : List (List Nat))
    (h : bs.flatten = utf8Encode t) :
    processReadableStream bs StreamEnd.eof =
      processReadableStream [utf8Encode t] StreamEnd.eof ∧
    chunkConcat (processReadableStream bs StreamEnd.eof) =
      chunkConcat (processReadableStream [utf8Encode t] StreamEnd.eof) := by
  have := processReadableStream_concat t bs h StreamEnd.eof
  exact ⟨this, by rw [this]⟩

/-- C3 (witness): the sample stream split inside a three-byte character
and inside the frame delimiter. -/
theorem chunk_boundary_robustness_witness :
    sampleStreamChunks.flatten = utf8Encode sampleStreamText ∧
    processReadableStream sampleStreamChunks StreamEnd.eof =
      processReadableStream [utf8Encode sampleStreamText] StreamEnd.eof := by
  refine ⟨by decide, ?_⟩
  exact (chunk_boundary_robustness sampleStreamText sampleStreamChunks (by decide)).1

/-- C6.  An empty or whitespace-only message short-circuits: the result is
`success := false` with the `validation` `ErrorContext`, `onError` receives
exactly that context, and no transport client is constructed or invoked. -/
theorem empty_prompt_validation (message : Str) (sid : Option Str) (psid : Str)
    (fb : Str → Option Str) (outcome : TransportOutcome)
    (h : jsTrim message = []) :
    (sendMessageWithStreaming message sid psid fb outcome).result.success = false ∧
    (sendMessageWithStreaming message sid psid fb outcome).result.error =
      some validationCtx ∧
    validationCtx.type = ErrType.validation ∧
    (sendMessageWithStreaming message sid psid fb outcome).trace =
      [TraceEvent.errorCb validationCtx] ∧
    (sendMessageWithStreaming message sid psid fb outcome).clientConstructed = false ∧
    (sendMessageWithStreaming message sid psid fb outcome).networkCalls = 0 := by
  have hcond : message = [] ∨ jsTrim message = [] := Or.inr h
  refine ⟨?_, ?_, rfl, ?_, ?_, ?_⟩ <;> simp [sendMessageWithStreaming, hcond]

/-- C6 (witness). -/
theorem empty_prompt_validation_witness :
    jsTrim [' '] = [] ∧
    (sendMessageWithStreaming [' '] none [] fbNone
      (.responds (.buffered sampleBothFrame) none)).networkCalls = 0 := by
  exact ⟨by decide,
    (empty_prompt_validation [' '] none [] fbNone
      (.responds (.buffered sampleBothFrame) none) (by decide)).2.2.2.2.2⟩

/-- C9.  The buffered path is a pure function of its input text: two runs
on the same complete text produce identical traces, and in particular
identical ordered chunk sequences. -/
theorem buffered_redecoding_idempotent (fb : Str → Option Str) (t1 t2 : Str)
    (h : t1 = t2) :
    parseSSEResponse fb t1 = parseSSEResponse fb t2 ∧
    chunkTexts (parseSSEResponse fb t1) = chunkTexts (parseSSEResponse fb t2) := by
  subst h
  exact ⟨rfl, rfl⟩

/-- C9 (witness). -/
theorem buffered_redecoding_idempotent_witness :
    chunkTexts (parseSSEResponse fbNone sampleBothFrame) =
      chunkTexts (parseSSEResponse fbNone sampleBothFrame) :=
  (buffered_redecoding_idempotent fbNone sampleBothFrame sampleBothFrame rfl).2

/-- The frame around `sampleStopPayload`. -/
def sampleStopFrame : Str := dataPrefix ++ sampleStopPayload

/-- C4 (counterexample).  A frame carrying both a text delta and the
tool-use stop reason, fed to the buffered entry point: `parseSSEResponse`
performs no stop-reason check at all, so no chunk carries the interim
notice — the claim promises exactly one on both entry points. -/
theorem toolUse_bufferedPath_counterexample :
    matchStop (dataLine sampleBothFrame) = true ∧
    (chunkTexts (parseSSEResponse fbNone sampleBothFrame)).count toolUseMessage = 0 := by
  constructor
  · decide
  · decide

/-- C4 (amended).  On the incremental path (`processSSEBuffer`), a frame
whose payload matches the stop-reason pattern emits the interim notice
exactly once, appended after the at-most-one text-delta chunk of the same
frame; the buffered path (`parseSSEResponse`) has no stop-reason check
and never emits the notice on its own account (only a delta or fallback
text that happens to equal it could). -/
theorem toolUse_signal_amended :
    (∀ e : Str, matchStop (dataLine e) = true →
      ∃ pre : List Str, processSSEBuffer e = pre ++ [toolUseMessage] ∧ pre.length ≤ 1 ∧
        (toolUseMessage ∉ pre → (processSSEBuffer e).count toolUseMessage = 1)) ∧
    (∀ (fb : Str → Option Str) (e : Str),
      (∀ p t, fb p = some t → ¬ t = toolUseMessage) →
      (∀ cap, matchCBD (dataLine e) = some cap → ¬ unescapeBuffered cap = toolUseMessage) →
      toolUseMessage ∉ processFrameBuffered fb e) := by
  refine ⟨?_, ?_⟩
  · intro e h
    have hne : ¬ dataLine e = [] := by
      intro h0
      rw [h0] at h
      exact absurd h (by decide)
    have hpe : processSSEBuffer e = processSSEBufferData (dataLine e) := by
      rw [processSSEBuffer, if_pos hne]
    rw [hpe]
    unfold processSSEBufferData
    rw [if_pos h]
    refine ⟨(match matchCBD (dataLine e) with
      | some cap => if cap ≠ [] then [unescapeStream cap] else []
      | none => []), rfl, ?_, ?_⟩
    · cases hm : matchCBD (dataLine e) with
      | none => simp
      | some cap =>
        by_cases hc : cap = [] <;> simp [hc]
    · intro hnot
      rw [List.count_append]
      rw [List.count_eq_zero.mpr hnot]
      rfl
  · intro fb e hfb hcap hmem
    by_cases hd : dataLine e = []
    · rw [processFrameBuffered_nil fb e hd] at hmem
      simp at hmem
    · cases hm : matchCBD (dataLine e) with
      | some cap =>
        by_cases hc : cap = []
        · rw [processFrameBuffered_emptyCap fb e cap hd hm hc] at hmem
          exact hfb _ _ (fallbackEmit_mem _ _ _ hmem) rfl
        · rw [processFrameBuffered_delta fb e cap hd hm hc] at hmem
          exact hcap cap hm (List.mem_singleton.mp hmem).symm
      | none =>
        rw [processFrameBuffered_noMatch fb e hd hm] at hmem
        exact hfb _ _ (fallbackEmit_mem _ _ _ hmem) rfl

/-- C4 (witness). -/
theorem toolUse_signal_witness :
    matchStop (dataLine sampleStopFrame) = true ∧
    ∃ pre : List Str, processSSEBuffer sampleStopFrame = pre ++ [toolUseMessage] ∧
      pre.length ≤ 1 ∧
      (toolUseMessage ∉ pre →
        (processSSEBuffer sampleStopFrame).count toolUseMessage = 1) :=
  ⟨by decide, toolUse_signal_amended.1 sampleStopFrame (by decide)⟩

/-- C5.  A payload text made of plain characters and the backslash escape
sequences for newline, tab, single quote and double quote unescapes — on
both paths — to the text with the corresponding literal characters in
place of the escapes; and a frame whose tolerant match captures such a
text delivers exactly that unescaped text as its chunk. -/
theorem escape_sequences_decoded (segs : List EscSeg)
    (hgood : ∀ s ∈ segs, goodSeg s = true) :
    unescapeStream (segs.flatMap renderSeg) = segs.map litSeg ∧
    unescapeBuffered (segs.flatMap renderSeg) = segs.map litSeg ∧
    (∀ d cap : Str, matchCBD d = some cap → ¬ cap = [] →
      processSSEBufferData d =
        [unescapeStream cap] ++ (if matchStop d then [toolUseMessage] else [])) ∧
    (∀ (fb : Str → Option Str) (e cap : Str),
      matchCBD (dataLine e) = some cap → ¬ cap = [] → ¬ dataLine e = [] →
      processFrameBuffered fb e = [unescapeBuffered cap]) := by
  refine ⟨unescapeStream_segs segs hgood, unescapeBuffered_segs segs hgood, ?_, ?_⟩
  · intro d cap hm hc
    unfold processSSEBufferData
    rw [hm]
    show (if cap ≠ [] then [unescapeStream cap] else []) ++ _ = _
    rw [if_pos (show cap ≠ [] by simpa using hc)]
  · intro fb e cap hm hc hd
    exact processFrameBuffered_delta fb e cap hd hm hc

/-- C5 (witness). -/
theorem escape_sequences_decoded_witness :
    (∀ s ∈ ([EscSeg.lit 'a', EscSeg.escN, EscSeg.escT, EscSeg.escQ, EscSeg.escD,
        EscSeg.lit 'b'] : List EscSeg), goodSeg s = true) ∧
    unescapeStream (([EscSeg.lit 'a', EscSeg.escN, EscSeg.escT, EscSeg.escQ, EscSeg.escD,
        EscSeg.lit 'b'] : List EscSeg).flatMap renderSeg) =
      ([EscSeg.lit 'a', EscSeg.escN, EscSeg.escT, EscSeg.escQ, EscSeg.escD,
        EscSeg.lit 'b'] : List EscSeg).map litSeg :=
  ⟨by decide,
    (escape_sequences_decoded
      [EscSeg.lit 'a', EscSeg.escN, EscSeg.escT, EscSeg.escQ, EscSeg.escD, EscSeg.lit 'b']
      (by decide)).1⟩

/-- C7.  A frame whose payload matches neither the tolerant pattern (no
match, or an empty capture) nor valid structured data (the fallback finds
nothing) contributes no chunk; the buffered path never invokes `onError`
for any input, always ends with the completion event, and a dropped frame
leaves the contributions of the surrounding frames untouched. -/
theorem malformed_frame_dropped :
    (∀ (fb : Str → Option Str) (e : Str),
      matchCBD (dataLine e) = none → fb (dataLine e) = none →
      processFrameBuffered fb e = []) ∧
    (∀ (fb : Str → Option Str) (e cap : Str),
      matchCBD (dataLine e) = some cap → cap = [] → fb (dataLine e) = none →
      processFrameBuffered fb e = []) ∧
    (∀ (fb : Str → Option Str) (t : Str) (ctx : ErrorContext),
      TraceEvent.errorCb ctx ∉ parseSSEResponse fb t) ∧
    (∀ (fb : Str → Option Str) (t : Str),
      (parseSSEResponse fb t).getLast? = some TraceEvent.complete) ∧
    (∀ (fb : Str → Option Str) (pre post : List Str) (e : Str),
      matchCBD (dataLine e) = none → fb (dataLine e) = none →
      (pre ++ [e] ++ post).flatMap (processFrameBuffered fb) =
        pre.flatMap (processFrameBuffered fb) ++
          post.flatMap (processFrameBuffered fb)) := by
  have h1 : ∀ (fb : Str → Option Str) (e : Str),
      matchCBD (dataLine e) = none → fb (dataLine e) = none →
      processFrameBuffered fb e = [] := by
    intro fb e hm hf
    by_cases hd : dataLine e = []
    · exact processFrameBuffered_nil fb e hd
    · rw [processFrameBuffered_noMatch fb e hd hm, fallbackEmit_none fb _ hf]
  refine ⟨h1, ?_, ?_, ?_, ?_⟩
  · intro fb e cap hm hc hf
    by_cases hd : dataLine e = []
    · exact processFrameBuffered_nil fb e hd
    · rw [processFrameBuffered_emptyCap fb e cap hd hm hc, fallbackEmit_none fb _ hf]
  · intro fb t ctx hmem
    rcases List.mem_append.mp hmem with h | h
    · obtain ⟨s, _, hs⟩ := List.mem_map.mp h
      exact TraceEvent.noConfusion hs
    · have := List.mem_singleton.mp h
      exact TraceEvent.noConfusion this
  · intro fb t
    exact List.getLast?_concat _
  · intro fb pre post e hm hf
    rw [List.flatMap_append, List.flatMap_append, List.flatMap_cons, h1 fb e hm hf]
    simp

/-- C7 (witness). -/
theorem malformed_frame_dropped_witness :
    matchCBD (dataLine (dataPrefix ++ "oops".toList)) = none ∧
    processFrameBuffered fbNone (dataPrefix ++ "oops".toList) = [] :=
  ⟨by decide, malformed_frame_dropped.1 fbNone (dataPrefix ++ "oops".toList) (by decide) rfl⟩

/-- C8 (counterexample).  The classifier inspects only the `code`
property, not the `name`: an error whose `name` contains `Auth` but which
lacks a `code` classifies as `unknown`, not `authentication`; and the
taxonomy kind is not coupled to the fixed message — an AWS-shaped error
with an `Auth` code but an unrecognised message classifies as
`authentication` yet keeps its raw message instead of the fixed one. -/
theorem classifier_counterexample :
    containsSub "Auth".toList (getErrorCode nameAuthErr) = true ∧
    classifyError nameAuthErr = ErrType.unknown ∧
    ¬ classifyError nameAuthErr = ErrType.authentication ∧
    classifyError codeAuthErr = ErrType.authentication ∧
    ¬ getErrorMessage codeAuthErr = authFailedMsg ∧
    getErrorMessage codeAuthErr = "boom".toList := by
  refine ⟨?_, ?_, ?_, ?_, ?_, ?_⟩ <;> decide

/-- C8 (amended).  `classifyError` maps AWS-shaped errors (string `code`
and `message` properties) whose `code` contains `Auth` or `Credential` to
`authentication`; independently, `getErrorMessage` returns the fixed
authentication message exactly when the raw `Error` message contains
`UnauthorizedOperation` or `AccessDenied`, and falls back to the raw
message when no pattern matches; end to end, a transport throw of an
authentication-shaped error (auth `code`, `AccessDenied` message) yields
`success := false` with kind `authentication`, a non-empty fixed message,
and no chunk callbacks. -/
theorem classifier_amended :
    (∀ e : RawError, isAWSError e = true →
      (containsSub "Auth".toList (e.code.getD []) ||
        containsSub "Credential".toList (e.code.getD [])) = true →
      classifyError e = ErrType.authentication) ∧
    (∀ e : RawError, e.isError = true →
      (containsSub "UnauthorizedOperation".toList (e.message.getD []) ||
        containsSub "AccessDenied".toList (e.message.getD [])) = true →
      getErrorMessage e = authFailedMsg) ∧
    (∀ e : RawError, e.isError = true →
      (containsSub "UnauthorizedOperation".toList (e.message.getD []) ||
        containsSub "AccessDenied".toList (e.message.getD [])) = false →
      (containsSub "ThrottlingException".toList (e.message.getD []) ||
        containsSub "TooManyRequests".toList (e.message.getD [])) = false →
      (containsSub "ServiceUnavailable".toList (e.message.getD []) ||
        containsSub "InternalError".toList (e.message.getD [])) = false →
      containsSub "ValidationException".toList (e.message.getD []) = false →
      containsSub "ResourceNotFound".toList (e.message.getD []) = false →
      (containsSub "NetworkingError".toList (e.message.getD []) ||
        containsSub "TimeoutError".toList (e.message.getD [])) = false →
      getErrorMessage e = e.message.getD []) ∧
    (∀ (msg : Str) (sid : Option Str) (psid : Str) (fb : Str → Option Str) (e : RawError),
      ¬ jsTrim msg = [] → e.isError = true → isAWSError e = true →
      containsSub "Auth".toList (e.code.getD []) = true →
      containsSub "AccessDenied".toList (e.message.getD []) = true →
      (sendMessageWithStreaming msg sid psid fb (.throws e)).result.success = false ∧
      (sendMessageWithStreaming msg sid psid fb (.throws e)).result.error =
        some { type := ErrType.authentication, code := getErrorCode e, message := authFailedMsg } ∧
      ¬ authFailedMsg = [] ∧
      (∀ s, TraceEvent.chunk s ∉
        (sendMessageWithStreaming msg sid psid fb (.throws e)).trace)) := by
  have hA : ∀ e : RawError, isAWSError e = true →
      (containsSub "Auth".toList (e.code.getD []) ||
        containsSub "Credential".toList (e.code.getD [])) = true →
      classifyError e = ErrType.authentication := by
    intro e hAWS hcond
    unfold classifyError
    rw [if_pos hAWS, if_pos hcond]
  have hM : ∀ e : RawError, e.isError = true →
      (containsSub "UnauthorizedOperation".toList (e.message.getD []) ||
        containsSub "AccessDenied".toList (e.message.getD [])) = true →
      getErrorMessage e = authFailedMsg := by
    intro e hErr hcond
    unfold getErrorMessage
    rw [if_pos hErr, if_pos hcond]
  refine ⟨hA, hM, ?_, ?_⟩
  · intro e hErr h1 h2 h3 h4 h5 h6
    unfold getErrorMessage
    rw [if_pos hErr, if_neg (by rw [h1]; decide), if_neg (by rw [h2]; decide),
      if_neg (by rw [h3]; decide), if_neg (by rw [h4]; decide), if_neg (by rw [h5]; decide),
      if_neg (by rw [h6]; decide)]
  · intro msg sid psid fb e hmsg hErr hAWS hAuth hDenied
    have hcond : ¬ (msg = [] ∨ jsTrim msg = []) := by
      intro h
      rcases h with h | h
      · exact hmsg (by simp [h, jsTrim])
      · exact hmsg h
    have hty : classifyError e = ErrType.authentication :=
      hA e hAWS (by rw [hAuth]; simp)
    have hme : getErrorMessage e = authFailedMsg :=
      hM e hErr (by rw [hDenied]; simp)
    refine ⟨by simp [sendMessageWithStreaming, hcond], ?_, by decide, ?_⟩
    · simp only [sendMessageWithStreaming, hcond, if_false]
      have hctx : catchCtx e =
          { type := ErrType.authentication, code := getErrorCode e, message := authFailedMsg } := by
        rw [catchCtx, hty, hme]
      rw [hctx]
    · intro s hmem
      simp only [sendMessageWithStreaming, hcond, if_false] at hmem
      have := List.mem_singleton.mp hmem
      exact TraceEvent.noConfusion this

/-- C8 (witness). -/
theorem classifier_amended_witness :
    isAWSError fullAuthErr = true ∧
    classifyError fullAuthErr = ErrType.authentication ∧
    getErrorMessage fullAuthErr = authFailedMsg ∧
    (sendMessageWithStreaming "hi".toList none [] fbNone
      (.throws fullAuthErr)).result.success = false :=
  ⟨by decide,
    classifier_amended.1 fullAuthErr (by decide) (by decide),
    classifier_amended.2.1 fullAuthErr (by decide) (by decide),
    (classifier_amended.2.2.2 "hi".toList none [] fbNone fullAuthErr (by decide) (by decide)
      (by decide) (by decide) (by decide)).1⟩

/-- C10.  The tolerant matcher's capture group excludes the single quote,
and neither unescape chain can reintroduce one (the quote-unescape pass
finds no pattern occurrence in a quote-free text, and every other pass
only inserts newline, tab or double-quote characters), so every chunk
delivered from a tolerant match is free of single quotes. -/
theorem tolerant_capture_no_quote (d cap : Str) (h : matchCBD d = some cap) :
    squote ∉ cap ∧ squote ∉ unescapeStream cap ∧ squote ∉ unescapeBuffered cap :=
  ⟨matchCBD_no_squote d cap h,
    unescapeStream_no_squote cap (matchCBD_no_squote d cap h),
    unescapeBuffered_no_squote cap (matchCBD_no_squote d cap h)⟩

/-- C10 (witness). -/
theorem tolerant_capture_no_quote_witness :
    matchCBD sampleDeltaPayload = some "Hi".toList ∧
    squote ∉ ("Hi".toList : Str) :=
  ⟨by decide, (tolerant_capture_no_quote sampleDeltaPayload "Hi".toList (by decide)).1⟩

end Chatbox
